import Mathlib

/-!
# tcp-echo-server: the echo handler, the connection supervisor and the port argument

A shallow embedding of `echoer/echoer.go`, `echoer/server.go` and the argument
handling of `main.go`.

Every goroutine of the program is sequential code whose behaviour is a function
of the answers it gets from its environment (the connection, the context, the
ticker, the listener).  Each goroutine is therefore embedded as a total function
from a finite script of such answers to the trace of operations it performs and
to its outcome.  A script that runs out before the goroutine returns leaves it
`pending`: it is blocked in, or about to issue, its next operation.
-/

namespace Echoer

/-- One byte of connection data. -/
abbrev Byte := Nat

/-- Error values reported by the network layer (`net.Conn`, `net.Listener`).
`eof` is the value `io.EOF`; `net timeout id` is a value implementing `net.Error`
whose `Timeout()` method answers `timeout`; `other id` is any other error value. -/
inductive IOError where
  | eof
  | net (timeout : Bool) (id : Nat)
  | other (id : Nat)
  deriving DecidableEq, Repr

/-- The test `netErr, ok := err.(net.Error); ok && netErr.Timeout()`. -/
def IOError.isTimeout : IOError → Bool
  | .net t _ => t
  | _ => false

/-- Go `error` values a function of this program can return: a value handed over by
the network layer, or a value allocated by the program with `errors.New`, which
is a fresh pointer and so differs from every value the network layer produced. -/
inductive GoError where
  | conn (e : IOError)
  | new (msg : String)
  deriving DecidableEq, Repr

/-- Answer of `conn.Read(bbuf)`: the bytes stored at the start of the buffer (their
number is the returned count `nb`) and the returned error. -/
structure ReadResult where
  data : List Byte
  err : Option IOError
  deriving DecidableEq, Repr

/-- Answer of `conn.Write(p)`: the returned count and the returned error. -/
structure WriteResult where
  n : Int
  err : Option IOError
  deriving DecidableEq, Repr

/-- Operations of a goroutine on its environment, with the answers received. -/
inductive Event where
  | ctxDone (fired : Bool)
  | setReadDeadline (err : Option IOError)
  | read (data : List Byte) (err : Option IOError)
  | write (p : List Byte) (n : Int) (err : Option IOError)
  | close
  deriving DecidableEq, Repr

/-- How far a goroutine got: it returned (with its `error` result), it panicked, or
it has not returned within the script. -/
inductive Outcome where
  | returned (err : Option GoError)
  | panicked
  | pending
  deriving DecidableEq, Repr

/-- Control after a loop body: go on with the loop, or leave the function. -/
inductive Flow where
  | next
  | exit (o : Outcome)
  deriving DecidableEq, Repr

/-- Length of `bbuf := make([]byte, 1024*1024)`. -/
def bufSize : Nat := 1024 * 1024

/-- Contents of the echo buffer, by index. -/
abbrev Buf := Nat → Byte

/-- The buffer after `make`: all zero. -/
def Buf.init : Buf := fun _ => 0

/-- Effect of a read on the buffer: the bytes read are stored from index 0. -/
def Buf.store (b : Buf) (data : List Byte) : Buf :=
  fun i => data.getD i (b i)

/-- The slice `bbuf[wc:nb]` for `0 ≤ wc ≤ nb`. -/
def Buf.slice (b : Buf) (wc nb : Int) : List Byte :=
  (List.range (nb - wc).toNat).map (fun k => b (wc.toNat + k))

/-- Go `int` addition on a 64-bit platform: two's complement wrap-around. -/
def wrapInt (x : Int) : Int := (x + 2 ^ 63) % 2 ^ 64 - 2 ^ 63

/-- The literal `errors.New("negative bytes indicated in write call")`. -/
def errNegative : GoError := .new "negative bytes indicated in write call"

/-- The literal `errors.New("zero bytes indicated in write call")`. -/
def errZero : GoError := .new "zero bytes indicated in write call"

/-- The inner loop `for wc < nb { n, err := e.conn.Write(bbuf[wc:nb]) ... wc += n }`
of `echoer.Run` (echoer.go 95-119), started with cursor `wc`, against the
answers `ws` of the successive `Write` calls. Slicing outside the buffer panics. -/
def writeLoop (bbuf : Buf) (nb : Int) (wc : Int) (ws : List WriteResult) :
    List Event × Flow :=
  if wc < nb then
    if wc < 0 ∨ (bufSize : Int) < nb then ([], .exit .panicked)
    else
      match ws with
      | [] => ([], .exit .pending)
      | w :: rest =>
        let ev := Event.write (bbuf.slice wc nb) w.n w.err
        if w.err = some .eof then ([ev], .exit (.returned none))
        else
          match w.err with
          | some e => ([ev], .exit (.returned (some (.conn e))))
          | none =>
            if w.n < 0 then ([ev], .exit (.returned (some errNegative)))
            else if w.n = 0 then ([ev], .exit (.returned (some errZero)))
            else
              let r := writeLoop bbuf nb (wrapInt (wc + w.n)) rest
              (ev :: r.1, r.2)
  else ([], .next)

/-- Answers of the environment to one iteration of the main loop of `echoer.Run`:
the state of `ctx.Done()` at the `select`, the result of `SetReadDeadline`, the
result of `Read`, and the results of the successive `Write` calls. Answers to
operations the iteration does not reach are not used. -/
structure Iter where
  cancelled : Bool
  deadline : Option IOError
  read : ReadResult
  writes : List WriteResult
  deriving DecidableEq, Repr

/-- One iteration of `for { select { case <-ctx.Done(): ... default: ... } }` of
`echoer.Run` (echoer.go 61-121): the trace, the buffer afterwards and the control flow. -/
def iteration (bbuf : Buf) (it : Iter) : List Event × Buf × Flow :=
  if it.cancelled then ([.ctxDone true], bbuf, .exit (.returned none))
  else
    match it.deadline with
    | some e =>
      ([.ctxDone false, .setReadDeadline (some e)], bbuf, .exit (.returned (some (.conn e))))
    | none =>
      let bbuf1 := bbuf.store it.read.data
      let nb : Int := it.read.data.length
      let pre := [Event.ctxDone false, .setReadDeadline none, .read it.read.data it.read.err]
      match it.read.err with
      | some e =>
        if e.isTimeout then (pre, bbuf1, .next)
        else if e = .eof then (pre, bbuf1, .exit (.returned none))
        else (pre, bbuf1, .exit (.returned (some (.conn e))))
      | none =>
        let r := writeLoop bbuf1 nb 0 it.writes
        (pre ++ r.1, bbuf1, r.2)

/-- The main loop of `echoer.Run` from buffer state `bbuf`. -/
def mainLoop (bbuf : Buf) : List Iter → List Event × Outcome
  | [] => ([], .pending)
  | it :: rest =>
    match iteration bbuf it with
    | (tr, bbuf1, .next) =>
      let r := mainLoop bbuf1 rest
      (tr ++ r.1, r.2)
    | (tr, _, .exit o) => (tr, o)

/-- What is observable of one call of `echoer.Run`. -/
structure RunResult where
  /-- operations of the handler goroutine, in order -/
  trace : List Event
  /-- result of the call -/
  outcome : Outcome
  /-- whether the announcer goroutine was started (`if e.announceAlive { go ... }`) -/
  announcer : Bool
  /-- whether the deferred `cancel()` has run -/
  cancelCalled : Bool
  deriving DecidableEq, Repr

/-- The method `(e *echoer) Run(ctx)` (echoer.go 28-122). The deferred `cancel()` runs
when the function returns or panics. -/
def echoer.Run (announceAlive : Bool) (script : List Iter) : RunResult :=
  let r := mainLoop Buf.init script
  { trace := r.1
    outcome := r.2
    announcer := announceAlive
    cancelCalled := match r.2 with
      | .pending => false
      | _ => true }

/-- The iterations of a script prefix all run to their end and fall through to the
next iteration: the trace they produce and the buffer they leave; `none` when one
of them leaves `echoer.Run` or does not finish. -/
def runsThrough (bbuf : Buf) : List Iter → Option (List Event × Buf)
  | [] => some ([], bbuf)
  | it :: rest =>
    match iteration bbuf it with
    | (tr, bbuf1, .next) => (runsThrough bbuf1 rest).map (fun r => (tr ++ r.1, r.2))
    | (_, _, .exit _) => none

/-- Bytes the transport took over in the `Write` calls of a trace: of each offered
slice, the first `n` bytes, `n` being the count the call reported. -/
def accepted : List Event → List Byte
  | [] => []
  | .write p n _ :: tr => p.take n.toNat ++ accepted tr
  | _ :: tr => accepted tr

/-- Bytes the transport handed over in the `Read` calls of a trace. -/
def delivered : List Event → List Byte
  | [] => []
  | .read data _ :: tr => data ++ delivered tr
  | _ :: tr => delivered tr

/-- The write answers `ws`, met with `r` bytes still to send, are error-free and
report counts that are positive and no larger than the slice offered, until
nothing is left to send. -/
def WritesFit : List WriteResult → Nat → Prop
  | [], r => r = 0
  | w :: ws, r => r = 0 ∨ (w.err = none ∧ 0 < w.n ∧ w.n ≤ r ∧ WritesFit ws (r - w.n.toNat))

/-- Decision procedure for `WritesFit`. -/
def WritesFit.dec : (ws : List WriteResult) → (r : Nat) → Decidable (WritesFit ws r)
  | [], r => inferInstanceAs (Decidable (r = 0))
  | w :: ws, r =>
    have := WritesFit.dec ws (r - w.n.toNat)
    inferInstanceAs (Decidable
      (r = 0 ∨ (w.err = none ∧ 0 < w.n ∧ w.n ≤ r ∧ WritesFit ws (r - w.n.toNat))))

instance (ws : List WriteResult) (r : Nat) : Decidable (WritesFit ws r) :=
  WritesFit.dec ws r

/-- Bytes the transport handed over in the `Read` calls of a trace that reported no
error. -/
def deliveredOk : List Event → List Byte
  | [] => []
  | .read data none :: tr => data ++ deliveredOk tr
  | _ :: tr => deliveredOk tr

/-- Bytes handed over by all the reads of a script. -/
def allBytes : List Iter → List Byte
  | [] => []
  | it :: s => it.read.data ++ allBytes s

/-- The read reports an error that is a timeout. -/
def ReadResult.timedOut (r : ReadResult) : Bool :=
  match r.err with
  | some e => e.isTimeout
  | none => false

/-- An iteration of an undisturbed session: no cancellation, the deadline is set, and
the read either times out or succeeds with at most 1 MiB, after which the writes
succeed (no error, positive counts within the slice offered). -/
def Iter.flows (it : Iter) : Prop :=
  it.cancelled = false ∧ it.deadline = none ∧
    (it.read.timedOut = true ∨
      (it.read.err = none ∧ it.read.data.length ≤ bufSize
        ∧ WritesFit it.writes it.read.data.length))

instance (it : Iter) : Decidable it.flows :=
  inferInstanceAs (Decidable (it.cancelled = false ∧ it.deadline = none ∧
    (it.read.timedOut = true ∨
      (it.read.err = none ∧ it.read.data.length ≤ bufSize
        ∧ WritesFit it.writes it.read.data.length))))

/-- The outcome with which `echoer.Run` leaves right after an operation with the
given answer, if that answer makes it leave. -/
def Event.ends : Event → Option Outcome
  | .ctxDone fired => if fired then some (.returned none) else none
  | .setReadDeadline (some e) => some (.returned (some (.conn e)))
  | .setReadDeadline none => none
  | .read _ (some e) =>
    if e.isTimeout then none
    else if e = .eof then some (.returned none)
    else some (.returned (some (.conn e)))
  | .read _ none => none
  | .write _ _ (some e) =>
    if e = .eof then some (.returned none) else some (.returned (some (.conn e)))
  | .write _ n none =>
    if n < 0 then some (.returned (some errNegative))
    else if n = 0 then some (.returned (some errZero))
    else none
  | .close => none

/-- Shape of the trace of a piece of `echoer.Run` that ends with control `f`: no
operation but the last makes `echoer.Run` leave, and when the piece leaves `echoer.Run` with a
result, its last operation is the one that produced that result. -/
def Shape (tr : List Event) : Flow → Prop
  | .next => ∀ e ∈ tr, e.ends = none
  | .exit o =>
    ((∀ e ∈ tr, e.ends = none) ∧ (o = .pending ∨ o = .panicked))
    ∨ ∃ tr1 e, tr = tr1 ++ [e] ∧ (∀ x ∈ tr1, x.ends = none) ∧ e.ends = some o

/-! ### The alive announcer (echoer.go 42-58) -/

/-- The payload `[]byte("alive\n")`. -/
def aliveMsg : List Byte := "alive\n".toList.map Char.toNat

/-- What one `select` of the announcer finds: whether a tick is waiting on `tm.C`,
whether `ctx.Done()` is closed, which of the two cases Go picks when both are
ready, and the answer the connection gives to the write made on a tick. -/
structure Select where
  tick : Bool
  done : Bool
  pickDone : Bool
  write : WriteResult
  deriving DecidableEq, Repr

/-- What is observable of the announcer goroutine: its operations on the
connection and whether it has returned. -/
structure AnnouncerResult where
  trace : List Event
  stopped : Bool
  deriving DecidableEq, Repr

/-- The goroutine `for { select { case <-tm.C: ... case <-ctx.Done(): ... } }`.
On a tick it writes the payload and drops both results of the write
(`_, _ = e.conn.Write(...)`); on `ctx.Done()` it stops the ticker and returns.
With neither case ready the `select` keeps waiting. -/
def announcerTask : List Select → AnnouncerResult
  | [] => ⟨[], false⟩
  | s :: rest =>
    if s.done && (!s.tick || s.pickDone) then ⟨[], true⟩
    else if s.tick then
      let r := announcerTask rest
      ⟨.write aliveMsg s.write.n s.write.err :: r.trace, r.stopped⟩
    else announcerTask rest

/-! ### The handler, its announcer and their context, run together

The announcer waits on the `Done()` channel of the context that `echoer.Run`
derives with `context.WithCancel(ctx)`. That channel is closed when the context
passed to `Run` is cancelled and when the deferred `cancel()` of `Run` runs. A
schedule lists, in the order in which they happen, the cancellation of the
passed context, the iterations of the handler and the `select`s of the
announcer. -/

/-- One step of a schedule: the context passed to `Run` is cancelled; the handler
runs one iteration of its main loop against the given answers of the
connection; the `select` of the announcer is examined, with whether a tick is
waiting, which case Go picks when both are ready, and the answer of the
connection to the write made on a tick. -/
inductive Sched where
  | cancel
  | handler (deadline : Option IOError) (read : ReadResult) (writes : List WriteResult)
  | announcer (tick : Bool) (pickDone : Bool) (write : WriteResult)
  deriving DecidableEq, Repr

/-- State of the goroutines of one connection. -/
structure Tasks where
  /-- whether `Done()` of the derived context is closed -/
  ctxDone : Bool
  /-- the echo buffer -/
  bbuf : Buf
  /-- where the handler is: at the head of its loop, or out of it with an outcome -/
  flow : Flow
  /-- operations of the handler so far -/
  htrace : List Event
  /-- the announcer: not started, running (`some false`) or returned (`some true`) -/
  announcer : Option Bool
  /-- operations of the announcer on the connection so far -/
  atrace : List Event

/-- The handler has left `Run` by a return or a panic, so its deferred `cancel()`
has run. -/
def Flow.ended : Flow → Bool
  | .exit (.returned _) => true
  | .exit .panicked => true
  | _ => false

/-- The outcome of `Run` seen from outside. -/
def Flow.outcome : Flow → Outcome
  | .next => .pending
  | .exit o => o

/-- State when `Run` reaches its main loop: the context is derived, the buffer is
made and the announcer is started if `announceAlive` is set (echoer.go 33-58). -/
def Tasks.init (announceAlive : Bool) : Tasks :=
  { ctxDone := false
    bbuf := Buf.init
    flow := .next
    htrace := []
    announcer := if announceAlive then some false else none
    atrace := [] }

/-- One step of the schedule. The handler sees the state of `ctx.Done()` in its
`select`, and closes it when it leaves `Run`. The announcer sees the same
channel in its `select`, writes on a tick and drops what the write reports. -/
def Tasks.step (s : Tasks) : Sched → Tasks
  | .cancel => { s with ctxDone := true }
  | .handler dl rd ws =>
    match s.flow with
    | .exit _ => s
    | .next =>
      let r := iteration s.bbuf ⟨s.ctxDone, dl, rd, ws⟩
      { s with
        ctxDone := s.ctxDone || r.2.2.ended
        bbuf := r.2.1
        flow := r.2.2
        htrace := s.htrace ++ r.1 }
  | .announcer tick pickDone w =>
    match s.announcer with
    | some false =>
      if s.ctxDone && (!tick || pickDone) then { s with announcer := some true }
      else if tick then { s with atrace := s.atrace ++ [.write aliveMsg w.n w.err] }
      else s
    | _ => s

/-- The goroutines of a connection run along a schedule. -/
def connTasks (announceAlive : Bool) (sched : List Sched) : Tasks :=
  sched.foldl Tasks.step (Tasks.init announceAlive)

/-- The answers the handler meets along a schedule: its iterations, each with the
state of the passed context at that time. -/
def handlerScript (cancelled : Bool) : List Sched → List Iter
  | [] => []
  | .cancel :: rest => handlerScript true rest
  | .handler dl rd ws :: rest => ⟨cancelled, dl, rd, ws⟩ :: handlerScript cancelled rest
  | .announcer _ _ _ :: rest => handlerScript cancelled rest

/-- What the `select`s of the announcer find along a schedule from a state. -/
def announcerSelects (s : Tasks) : List Sched → List Select
  | [] => []
  | .announcer t p w :: rest =>
    ⟨t, s.ctxDone, p, w⟩ :: announcerSelects (s.step (.announcer t p w)) rest
  | .cancel :: rest => announcerSelects (s.step .cancel) rest
  | .handler dl rd ws :: rest => announcerSelects (s.step (.handler dl rd ws)) rest

/-- The step is the cancellation of the passed context. -/
def Sched.isCancel : Sched → Bool
  | .cancel => true
  | _ => false

/-- Two states of the goroutines of a connection that differ at most in what the
connection answered to the writes of the announcer. -/
def Tasks.agree (s s1 : Tasks) : Prop :=
  s.ctxDone = s1.ctxDone ∧ s.bbuf = s1.bbuf ∧ s.flow = s1.flow ∧ s.htrace = s1.htrace
    ∧ s.announcer = s1.announcer ∧ s.atrace.length = s1.atrace.length

/-- A step without what the connection answers to the write of the announcer. -/
def Sched.timing : Sched → Sched
  | .announcer t p _ => .announcer t p ⟨0, none⟩
  | x => x

/-! ### The connection supervisor (server.go 30-82) -/

/-- What is observable of the goroutine the supervisor starts for a connection. -/
structure ConnGoroutine where
  /-- operations on the connection, in order -/
  trace : List Event
  /-- whether the goroutine has ended -/
  finished : Bool
  /-- whether it logged "echoer exited with error" -/
  loggedError : Bool
  deriving DecidableEq, Repr

/-- The goroutine `go func(ctx) { e := NewEchoer(conn, s.announceAlive); err := e.Run(ctx);
if err != nil { log... } }(ctx)` (server.go 74-80). Its only use of the connection
is the call of `echoer.Run`. -/
def connGoroutine (announceAlive : Bool) (script : List Iter) : ConnGoroutine :=
  let r := echoer.Run announceAlive script
  { trace := r.trace
    finished := match r.outcome with
      | .returned _ => true
      | _ => false
    loggedError := match r.outcome with
      | .returned (some _) => true
      | _ => false }

/-- Answer of one `ln.Accept()`: a connection, given by the answers it will give to
its handler, or an error together with the state of `ctx.Err() != nil` at the
check that follows. -/
inductive AcceptResult where
  | conn (script : List Iter)
  | fail (err : IOError) (ctxErr : Bool)
  deriving DecidableEq, Repr

/-- What is observable of `tcpEchoServer.Run`. -/
structure ServerResult where
  /-- result of the call -/
  outcome : Outcome
  /-- number of `Accept` calls made -/
  accepts : Nat
  /-- the goroutines started for accepted connections, in order -/
  handlers : List ConnGoroutine
  deriving DecidableEq, Repr

/-- The accept loop `for { i++; conn, err := ln.Accept(); ... }` (server.go 53-81). -/
def acceptLoop (announceAlive : Bool) : List AcceptResult → ServerResult
  | [] => ⟨.pending, 0, []⟩
  | .fail _ ctxErr :: rest =>
    if ctxErr then ⟨.returned none, 1, []⟩
    else
      let r := acceptLoop announceAlive rest
      ⟨r.outcome, r.accepts + 1, r.handlers⟩
  | .conn script :: rest =>
    let r := acceptLoop announceAlive rest
    ⟨r.outcome, r.accepts + 1, connGoroutine announceAlive script :: r.handlers⟩

/-- The method `(s *tcpEchoServer) Run(ctx)`: `listen` is the error of `lc.Listen`,
`steps` are the answers of the successive `Accept` calls. -/
def tcpEchoServer.Run (announceAlive : Bool) (listen : Option IOError) (steps : List AcceptResult) :
    ServerResult :=
  match listen with
  | some e => ⟨.returned (some (.conn e)), 0, []⟩
  | none => acceptLoop announceAlive steps

/-- What the supervisor itself sees of an `Accept` answer: nothing of the connection
behind a success. -/
def AcceptResult.seen : AcceptResult → Option (IOError × Bool)
  | .conn _ => none
  | .fail e c => some (e, c)

/-- An `Accept` answer that makes the supervisor return: a failure while the
context is cancelled. -/
def AcceptResult.final : AcceptResult → Bool
  | .fail _ c => c
  | .conn _ => false

/-! ### The port argument (main.go 34-49)

`main` hands the argument to `strconv.ParseInt(args[0], 10, 16)` of the Go
standard library, embedded here for base 10 and bit size 16 after the library's
algorithm. An argument is a sequence of characters; a character outside ASCII is
several bytes in Go, none of which is a sign, a digit or a letter. -/

/-- The `Err` field of a `*strconv.NumError`: `invalid` is `ErrSyntax`, `range` is
`ErrRange`. -/
inductive NumError where
  | invalid
  | range
  deriving DecidableEq, Repr

/-- The largest `uint64`. -/
def maxUint64 : Nat := 2 ^ 64 - 1

/-- The digit loop of `strconv.ParseUint(s, 10, 16)`: `n` is the value so far. A byte
that is no digit and no letter, or a letter (whose value is at least the base),
is a syntax error; a value above `1<<16 - 1` is a range error, returned with
that maximum. Arithmetic is that of `uint64`. -/
def parseUintLoop : Nat → List Char → Nat × Option NumError
  | n, [] => (n, none)
  | n, c :: cs =>
    let lower := c.toNat ||| 32
    let d? : Option Nat :=
      if 48 ≤ c.toNat ∧ c.toNat ≤ 57 then some (c.toNat - 48)
      else if 97 ≤ lower ∧ lower ≤ 122 then some (lower - 97 + 10)
      else none
    match d? with
    | none => (0, some .invalid)
    | some d =>
      if d ≥ 10 then (0, some .invalid)
      else if n ≥ maxUint64 / 10 + 1 then (2 ^ 16 - 1, some .range)
      else
        let n10 := n * 10 % 2 ^ 64
        let n1 := (n10 + d) % 2 ^ 64
        if n1 < n10 ∨ n1 > 2 ^ 16 - 1 then (2 ^ 16 - 1, some .range)
        else parseUintLoop n1 cs

/-- The call `strconv.ParseUint(s, 10, 16)`. -/
def ParseUint (s : List Char) : Nat × Option NumError :=
  if s = [] then (0, some .invalid) else parseUintLoop 0 s

/-- The call `strconv.ParseInt(s, 10, 16)`: an optional sign, then `ParseUint`, whose
error is returned unless it is a range error, then the check against the cutoff
`1 << 15`. -/
def ParseInt (s : List Char) : Int × Option NumError :=
  match s with
  | [] => (0, some .invalid)
  | c :: cs =>
    let neg := decide (c = '-')
    let rest := if c = '+' ∨ c = '-' then cs else c :: cs
    let r := ParseUint rest
    if r.2 ≠ none ∧ r.2 ≠ some .range then (0, r.2)
    else
      let cutoff : Nat := 2 ^ 15
      if neg = false ∧ r.1 ≥ cutoff then ((cutoff : Int) - 1, some .range)
      else if neg = true ∧ r.1 > cutoff then (-(cutoff : Int), some .range)
      else (if neg = true then -(r.1 : Int) else (r.1 : Int), none)

/-- How `main` goes on after looking at its positional arguments: it prints a message
and exits with a code before any server exists, or it creates the server with a
listen port and runs it. -/
inductive MainResult where
  | exit (code : Nat) (printed : String)
  | serve (listenPort : Int)
  deriving DecidableEq, Repr

/-- The argument handling of `main` (main.go 34-49, 85). -/
def mainArgs (args : List String) : MainResult :=
  match args with
  | [arg] =>
    let r := ParseInt arg.toList
    if r.2 ≠ none then
      .exit 1 ("error: invalid integer for listenPort (got " ++ arg ++ ")\n")
    else .serve r.1
  | _ => .exit 1 ("error: wrong number of arguments (" ++ toString args.length ++ ")\n")

/-- The digits of a decimal numeral: the text after an optional sign `+` or `-`. -/
def unsignedPart : List Char → List Char
  | [] => []
  | c :: cs => if c = '+' ∨ c = '-' then cs else c :: cs

/-- A decimal digit. -/
def isDecDigit (c : Char) : Bool := decide (48 ≤ c.toNat ∧ c.toNat ≤ 57)

/-- The text is a base-10 integer: an optional sign followed by one or more decimal
digits. -/
def isDecimalInt (s : List Char) : Bool :=
  !(unsignedPart s).isEmpty && (unsignedPart s).all isDecDigit

/-- The number written by a sequence of decimal digits, after the value `n` of the
digits before it. -/
def digitsValue : Nat → List Char → Nat
  | n, [] => n
  | n, c :: cs => digitsValue (n * 10 + (c.toNat - 48)) cs

/-- The integer a base-10 text denotes. -/
def decimalValue (s : List Char) : Int :=
  match s with
  | [] => 0
  | c :: _ =>
    if c = '-' then -(digitsValue 0 (unsignedPart s) : Int)
    else (digitsValue 0 (unsignedPart s) : Int)

/-! ### Sample answers of the environment, used to instantiate the theorems -/

/-- An iteration whose read runs into the 100 ms deadline. -/
def timeoutIter : Iter := ⟨false, none, ⟨[], some (.net true 0)⟩, []⟩

/-- An iteration that reads the three bytes 1, 2, 3, accepted in two writes. -/
def chunkIter : Iter := ⟨false, none, ⟨[1, 2, 3], none⟩, [⟨2, none⟩, ⟨1, none⟩]⟩

/-- An iteration whose read reports end-of-stream. -/
def eofIter : Iter := ⟨false, none, ⟨[], some .eof⟩, []⟩

/-- An iteration that finds the context cancelled. -/
def cancelledIter : Iter := ⟨true, none, ⟨[], none⟩, []⟩

/-! ## Basic facts about the buffer and the loops -/

theorem wrapInt_of_small (x : Int) (h0 : 0 ≤ x) (h1 : x ≤ 2 ^ 62) : wrapInt x = x := by
  unfold wrapInt
  omega

theorem slice_store (b : Buf) (data : List Byte) (wc : Nat) (h : wc ≤ data.length) :
    (b.store data).slice wc data.length = data.drop wc := by
  apply List.ext_getElem
  · simp [Buf.slice]
  · intro i h1 h2
    simp [Buf.slice, Buf.store] at h1 ⊢
    have : wc + i < data.length := by omega
    simp [List.getD_eq_getElem?_getD, List.getElem?_eq_getElem this]

theorem accepted_append (a b : List Event) : accepted (a ++ b) = accepted a ++ accepted b := by
  induction a with
  | nil => rfl
  | cons e a ih => cases e <;> simp [accepted, ih]

theorem delivered_append (a b : List Event) :
    delivered (a ++ b) = delivered a ++ delivered b := by
  induction a with
  | nil => rfl
  | cons e a ih => cases e <;> simp [delivered, ih]

/-- The write loop against answers that fit: it ends normally, every call offers
the suffix not yet accepted, and the accepted bytes are the data from the cursor on. -/
theorem writeLoop_fit (b : Buf) (data : List Byte) (hlen : data.length ≤ bufSize)
    (ws : List WriteResult) :
    ∀ wc : Nat, wc ≤ data.length → WritesFit ws (data.length - wc) →
    ∃ W : List Event,
      writeLoop (b.store data) data.length wc ws = (W, .next)
      ∧ (∀ e ∈ W, ∃ p n, e = .write p n none)
      ∧ (∀ pre p n err post, W = pre ++ .write p n err :: post →
          p = data.drop (wc + (accepted pre).length))
      ∧ accepted W = data.drop wc
      ∧ W.length ≤ data.length - wc := by
  induction ws with
  | nil =>
    intro wc hwc hfit
    have h0 : data.length - wc = 0 := hfit
    have hwc2 : wc = data.length := by omega
    subst hwc2
    refine ⟨[], ?_, ?_, ?_, ?_, ?_⟩
    · unfold writeLoop; simp
    · simp
    · intro pre p n err post h; simp at h
    · simp [accepted]
    · simp
  | cons w rest ih =>
    intro wc hwc hfit
    by_cases h0 : data.length - wc = 0
    · have hwc2 : wc = data.length := by omega
      subst hwc2
      refine ⟨[], ?_, ?_, ?_, ?_, ?_⟩
      · unfold writeLoop; simp
      · simp
      · intro pre p n err post h; simp at h
      · simp [accepted]
      · simp
    · have hfit2 : w.err = none ∧ 0 < w.n ∧ w.n ≤ ((data.length - wc : Nat) : Int)
          ∧ WritesFit rest (data.length - wc - w.n.toNat) := by
        rcases hfit with h | h
        · exact absurd h h0
        · exact h
      obtain ⟨herr, hpos, hle, hrest⟩ := hfit2
      have hlt : wc < data.length := by omega
      have hbs : bufSize = 1048576 := rfl
      have hnat : (w.n.toNat : Int) = w.n := Int.toNat_of_nonneg (le_of_lt hpos)
      have hle2 : w.n.toNat ≤ data.length - wc := by omega
      have hwrap : wrapInt ((wc : Int) + w.n) = ((wc + w.n.toNat : Nat) : Int) := by
        rw [wrapInt_of_small] <;> push_cast <;> omega
      have hr2 : data.length - wc - w.n.toNat = data.length - (wc + w.n.toNat) := by omega
      rw [hr2] at hrest
      obtain ⟨W, hW, hall, hoff, hacc, hcnt⟩ := ih (wc + w.n.toNat) (by omega) hrest
      refine ⟨.write (data.drop wc) w.n none :: W, ?_, ?_, ?_, ?_, ?_⟩
      · rw [writeLoop]
        have c1 : ((wc : Int) < (data.length : Int)) := by exact_mod_cast hlt
        have c2 : ¬ ((wc : Int) < 0 ∨ (bufSize : Int) < (data.length : Int)) := by omega
        have c3 : ¬ w.n < 0 := by omega
        have c4 : ¬ w.n = 0 := by omega
        simp only [c1, c2, if_true, if_false, herr, c3, c4, hwrap, hW]
        simp [slice_store b data wc hwc]
      · intro e he
        rcases List.mem_cons.mp he with h | h
        · exact ⟨_, _, h⟩
        · exact hall e h
      · intro pre p n err post h
        cases pre with
        | nil =>
          simp at h
          simp [accepted, h.1.1]
        | cons e pre =>
          simp at h
          obtain ⟨he, hW2⟩ := h
          have := hoff pre p n err post hW2
          rw [this, ← he]
          simp only [accepted, List.length_append, List.length_take, List.length_drop]
          congr 1
          omega
      · simp only [accepted, hacc]
        rw [← List.drop_drop]
        exact List.take_append_drop _ _
      · simp
        omega

/-- A script prefix whose iterations all fall through is followed by the run of
the rest of the script from the buffer the prefix leaves. -/
theorem mainLoop_append (rest : List Iter) (pre : List Iter) :
    ∀ (b : Buf) (tr : List Event) (b1 : Buf), runsThrough b pre = some (tr, b1) →
      mainLoop b (pre ++ rest) = (tr ++ (mainLoop b1 rest).1, (mainLoop b1 rest).2) := by
  induction pre with
  | nil =>
    intro b tr b1 h
    simp [runsThrough] at h
    obtain ⟨h1, h2⟩ := h
    subst h1; subst h2
    simp
  | cons it pre ih =>
    intro b tr b1 h
    rw [runsThrough] at h
    rw [List.cons_append, mainLoop]
    rcases hit : iteration b it with ⟨t, b2, f⟩
    rw [hit] at h
    cases f with
    | next =>
      simp only [Option.map_eq_some'] at h
      obtain ⟨⟨t2, b3⟩, h3, h4⟩ := h
      simp only [Prod.mk.injEq] at h4
      obtain ⟨h5, h6⟩ := h4
      subst h5; subst h6
      simp [ih b2 t2 b3 h3]
    | exit o => simp at h

theorem Run_append (a : Bool) (pre rest : List Iter) (tr : List Event) (b1 : Buf)
    (h : runsThrough Buf.init pre = some (tr, b1)) :
    (echoer.Run a (pre ++ rest)).trace = tr ++ (mainLoop b1 rest).1
      ∧ (echoer.Run a (pre ++ rest)).outcome = (mainLoop b1 rest).2 := by
  simp [echoer.Run, mainLoop_append rest pre Buf.init tr b1 h]

theorem Shape.append {a tr : List Event} {f : Flow} (ha : ∀ e ∈ a, e.ends = none)
    (h : Shape tr f) : Shape (a ++ tr) f := by
  cases f with
  | next =>
    intro e he
    rcases List.mem_append.mp he with h1 | h1
    · exact ha e h1
    · exact h e h1
  | exit o =>
    rcases h with ⟨h1, h2⟩ | ⟨tr1, e, h1, h2, h3⟩
    · left
      refine ⟨?_, h2⟩
      intro e he
      rcases List.mem_append.mp he with h3 | h3
      · exact ha e h3
      · exact h1 e h3
    · right
      refine ⟨a ++ tr1, e, by simp [h1], ?_, h3⟩
      intro x hx
      rcases List.mem_append.mp hx with h4 | h4
      · exact ha x h4
      · exact h2 x h4

theorem writeLoop_shape (b : Buf) (nb : Int) (ws : List WriteResult) :
    ∀ wc : Int, Shape (writeLoop b nb wc ws).1 (writeLoop b nb wc ws).2 := by
  induction ws with
  | nil =>
    intro wc
    unfold writeLoop
    split_ifs <;> simp [Shape]
  | cons w rest ih =>
    intro wc
    rw [writeLoop]
    by_cases c1 : wc < nb
    · by_cases c2 : wc < 0 ∨ (bufSize : Int) < nb
      · simp [c1, c2, Shape]
      · simp only [c1, c2, if_true, if_false]
        by_cases c3 : w.err = some .eof
        · simp only [c3, if_true]
          right
          exact ⟨[], _, rfl, by simp, by simp [Event.ends]⟩
        · simp only [c3, if_false]
          cases herr : w.err with
          | some e =>
            simp only
            right
            refine ⟨[], _, rfl, by simp, ?_⟩
            have : e ≠ .eof := by
              intro h
              apply c3
              rw [herr, h]
            simp [Event.ends, this]
          | none =>
            simp only
            by_cases c4 : w.n < 0
            · simp only [c4, if_true]
              right
              exact ⟨[], _, rfl, by simp, by simp [Event.ends, c4]⟩
            · by_cases c5 : w.n = 0
              · simp only [c5, if_true]
                right
                exact ⟨[], _, rfl, by simp, by simp [Event.ends]⟩
              · simp only [c4, c5, if_false]
                have := ih (wrapInt (wc + w.n))
                exact Shape.append (a := [_]) (by simp [Event.ends, c4, c5]) this
    · simp [c1, Shape]

theorem iteration_shape (b : Buf) (it : Iter) :
    Shape (iteration b it).1 (iteration b it).2.2 := by
  unfold iteration
  by_cases c1 : it.cancelled = true
  · simp only [c1, if_true]
    right
    exact ⟨[], _, rfl, by simp, by simp [Event.ends]⟩
  · simp only [c1]
    cases hd : it.deadline with
    | some e =>
      simp only
      right
      exact ⟨[.ctxDone false], _, rfl, by simp [Event.ends], by simp [Event.ends]⟩
    | none =>
      simp only
      cases he : it.read.err with
      | some e =>
        simp only
        by_cases c2 : e.isTimeout = true
        · simp [c2, Shape, Event.ends]
        · by_cases c3 : e = .eof
          · simp only [c2, c3, if_true]
            right
            exact ⟨[.ctxDone false, .setReadDeadline none], _, rfl, by simp [Event.ends],
              by simp [Event.ends, IOError.isTimeout]⟩
          · simp only [c2, c3, if_false]
            right
            exact ⟨[.ctxDone false, .setReadDeadline none], _, rfl, by simp [Event.ends],
              by simp [Event.ends, c2, c3]⟩
      | none =>
        simp only
        exact Shape.append (by simp [Event.ends]) (writeLoop_shape _ _ _ _)

theorem mainLoop_shape (script : List Iter) :
    ∀ b : Buf, Shape (mainLoop b script).1 (.exit (mainLoop b script).2) := by
  induction script with
  | nil =>
    intro b
    simp [mainLoop, Shape]
  | cons it rest ih =>
    intro b
    rw [mainLoop]
    have h := iteration_shape b it
    rcases hit : iteration b it with ⟨t, b2, f⟩
    rw [hit] at h
    cases f with
    | next => exact Shape.append h (ih b2)
    | exit o => exact h

/-- In a trace of the given shape, an operation whose answer makes `echoer.Run` leave is
the last one, and the outcome is the one it produces. -/
theorem Shape.ends_last {tr : List Event} {o o1 : Outcome} (h : Shape tr (.exit o))
    {pre post : List Event} {e : Event} (htr : tr = pre ++ e :: post)
    (he : e.ends = some o1) : post = [] ∧ o = o1 := by
  have hmem : e ∈ tr := by simp [htr]
  rcases h with ⟨h1, _⟩ | ⟨tr1, x, h1, h2, h3⟩
  · have := h1 e hmem
    rw [he] at this
    exact absurd this (by simp)
  · rcases List.eq_nil_or_concat post with hp | ⟨post1, y, hp⟩
    · subst hp
      have h4 : pre ++ [e] = tr1 ++ [x] := by rw [← htr, h1]
      obtain ⟨_, h5⟩ := List.append_inj' h4 rfl
      simp at h5
      subst h5
      rw [he] at h3
      exact ⟨rfl, by simpa using h3.symm⟩
    · subst hp
      have h4 : (pre ++ e :: post1) ++ [y] = tr1 ++ [x] := by
        rw [← h1, htr]; simp
      obtain ⟨h5, _⟩ := List.append_inj' h4 rfl
      have : e ∈ tr1 := by rw [← h5]; simp
      have := h2 e this
      rw [he] at this
      exact absurd this (by simp)

/-- When the run has returned, its last operation is the one that made it return. -/
theorem Shape.returned_last {tr : List Event} {r : Option GoError}
    (h : Shape tr (.exit (.returned r))) :
    ∃ tr1 e, tr = tr1 ++ [e] ∧ e.ends = some (.returned r) := by
  rcases h with ⟨_, h2 | h2⟩ | ⟨tr1, x, h1, _, h3⟩
  · cases h2
  · cases h2
  · exact ⟨tr1, x, h1, h3⟩

theorem Run_shape (a : Bool) (script : List Iter) :
    Shape (echoer.Run a script).trace (.exit (echoer.Run a script).outcome) :=
  mainLoop_shape script Buf.init

theorem iteration_head (b : Buf) (it : Iter) :
    ∃ c t, (iteration b it).1 = .ctxDone c :: t := by
  unfold iteration
  by_cases c1 : it.cancelled = true
  · exact ⟨true, [], by simp [c1]⟩
  · rw [if_neg c1]
    cases it.deadline with
    | some e => exact ⟨false, _, rfl⟩
    | none =>
      simp only
      cases it.read.err with
      | some e =>
        simp only
        split_ifs <;> exact ⟨false, _, rfl⟩
      | none => exact ⟨false, _, rfl⟩

/-- What the main loop does next starts with the check of `ctx.Done()`; when it does
nothing, the handler is waiting at the head of the loop. -/
theorem mainLoop_head (b : Buf) (script : List Iter) :
    ((mainLoop b script).1 = [] ∧ (mainLoop b script).2 = .pending)
      ∨ ∃ c t, (mainLoop b script).1 = .ctxDone c :: t := by
  cases script with
  | nil => left; simp [mainLoop]
  | cons it rest =>
    right
    obtain ⟨c, t, h⟩ := iteration_head b it
    rw [mainLoop]
    rcases hit : iteration b it with ⟨t1, b2, f⟩
    rw [hit] at h
    simp only at h
    subst h
    cases f with
    | next => exact ⟨c, _, rfl⟩
    | exit o => exact ⟨c, _, rfl⟩

theorem deliveredOk_append (a b : List Event) :
    deliveredOk (a ++ b) = deliveredOk a ++ deliveredOk b := by
  induction a with
  | nil => rfl
  | cons e a ih =>
    cases e with
    | read d err => cases err <;> simp [deliveredOk, ih]
    | _ => simp [deliveredOk, ih]

theorem allBytes_append (a b : List Iter) : allBytes (a ++ b) = allBytes a ++ allBytes b := by
  induction a with
  | nil => rfl
  | cons it a ih => simp [allBytes, ih]

theorem accepted_of_writes (W : List Event) (h : ∀ e ∈ W, ∃ p n, e = .write p n none) :
    delivered W = [] ∧ deliveredOk W = [] := by
  induction W with
  | nil => exact ⟨rfl, rfl⟩
  | cons e W ih =>
    obtain ⟨p, n, he⟩ := h e (by simp)
    subst he
    have := ih (fun x hx => h x (by simp [hx]))
    simpa [delivered, deliveredOk] using this

/-- An iteration of an undisturbed session falls through to the next one; what it
writes is what its read delivered without error. -/
theorem iteration_flows (b : Buf) (it : Iter) (h : it.flows) :
    ∃ tr, iteration b it = (tr, b.store it.read.data, .next)
      ∧ delivered tr = it.read.data
      ∧ accepted tr = deliveredOk tr
      ∧ ((it.read.err ≠ none → it.read.data = []) → accepted tr = it.read.data) := by
  obtain ⟨hc, hd, h3⟩ := h
  rcases h3 with ht | ⟨he, hlen, hfit⟩
  · cases herr : it.read.err with
    | none => simp [ReadResult.timedOut, herr] at ht
    | some e =>
      have ht2 : e.isTimeout = true := by simpa [ReadResult.timedOut, herr] using ht
      refine ⟨[.ctxDone false, .setReadDeadline none, .read it.read.data (some e)], ?_, ?_, ?_, ?_⟩
      · simp [iteration, hc, hd, herr, ht2]
      · simp [delivered]
      · simp [accepted, deliveredOk]
      · intro h
        rw [h (by simp [herr])]
        simp [accepted]
  · obtain ⟨W, hW, hall, _, hacc, _⟩ :=
      writeLoop_fit b it.read.data hlen it.writes 0 (Nat.zero_le _) (by simpa using hfit)
    have hW2 : writeLoop (b.store it.read.data) (↑it.read.data.length) 0 it.writes
        = (W, .next) := by simpa using hW
    obtain ⟨hdl, hdo⟩ := accepted_of_writes W hall
    have hacc2 : accepted W = it.read.data := by simpa using hacc
    refine ⟨[.ctxDone false, .setReadDeadline none, .read it.read.data none] ++ W, ?_, ?_, ?_, ?_⟩
    · simp [iteration, hc, hd, he, hW2]
    · simp [delivered, hdl]
    · simp [accepted, deliveredOk, hdo, hacc2]
    · intro _
      simp [accepted, hacc2]

/-- A stretch of an undisturbed session runs through; the bytes its reads deliver
are the bytes of the script, and what it writes is what was read without error. -/
theorem runsThrough_flows (s : List Iter) :
    ∀ b : Buf, (∀ it ∈ s, it.flows) →
      ∃ tr b1, runsThrough b s = some (tr, b1)
        ∧ delivered tr = allBytes s
        ∧ accepted tr = deliveredOk tr
        ∧ ((∀ it ∈ s, it.read.err ≠ none → it.read.data = []) → accepted tr = allBytes s) := by
  induction s with
  | nil =>
    intro b _
    exact ⟨[], b, rfl, rfl, rfl, fun _ => rfl⟩
  | cons it s ih =>
    intro b h
    obtain ⟨t, hi, hdel, hacc, hall⟩ := iteration_flows b it (h it (by simp))
    obtain ⟨tr, b1, hr, hdel2, hacc2, hall2⟩ :=
      ih (b.store it.read.data) (fun x hx => h x (by simp [hx]))
    refine ⟨t ++ tr, b1, ?_, ?_, ?_, ?_⟩
    · rw [runsThrough, hi]
      simp [hr]
    · simp [delivered_append, allBytes, hdel, hdel2]
    · simp [accepted_append, deliveredOk_append, hacc, hacc2]
    · intro hz
      rw [accepted_append, allBytes, hall (hz it (by simp)),
        hall2 (fun x hx => hz x (by simp [hx]))]

theorem deliveredOk_length_le (tr : List Event) :
    (deliveredOk tr).length ≤ (delivered tr).length := by
  induction tr with
  | nil => simp [deliveredOk, delivered]
  | cons e tr ih =>
    cases e with
    | read d err =>
      cases err <;> simp [deliveredOk, delivered] <;> omega
    | _ => simpa [deliveredOk, delivered] using ih

/-- The reads without error delivered everything that was delivered exactly when no
read delivered bytes together with an error. -/
theorem deliveredOk_eq_delivered_iff (tr : List Event) :
    deliveredOk tr = delivered tr ↔ ∀ d e, Event.read d (some e) ∈ tr → d = [] := by
  induction tr with
  | nil => simp [deliveredOk, delivered]
  | cons x tr ih =>
    cases x with
    | read d err =>
      cases err with
      | none =>
        simp only [deliveredOk, delivered, List.append_cancel_left_eq, ih]
        constructor
        · intro h d1 e1 hm
          rcases List.mem_cons.mp hm with h1 | h1
          · cases h1
          · exact h d1 e1 h1
        · intro h d1 e1 hm
          exact h d1 e1 (List.mem_cons_of_mem _ hm)
      | some e =>
        simp only [deliveredOk, delivered]
        constructor
        · intro h
          have hl := congrArg List.length h
          have hle := deliveredOk_length_le tr
          simp only [List.length_append] at hl
          have hd : d = [] := List.length_eq_zero.mp (by omega)
          subst hd
          have h2 : deliveredOk tr = delivered tr := by simpa using h
          intro d1 e1 hm
          rcases List.mem_cons.mp hm with h1 | h1
          · cases h1; rfl
          · exact (ih.mp h2) d1 e1 h1
        · intro h
          have hd : d = [] := h d e (List.mem_cons_self _ _)
          subst hd
          simpa using ih.mpr (fun d1 e1 hm => h d1 e1 (List.mem_cons_of_mem _ hm))
    | _ =>
      simp only [deliveredOk, delivered, ih]
      constructor
      · intro h d1 e1 hm
        rcases List.mem_cons.mp hm with h1 | h1
        · cases h1
        · exact h d1 e1 h1
      · intro h d1 e1 hm
        exact h d1 e1 (List.mem_cons_of_mem _ hm)

/-- Whatever way an iteration ends, when the writes after a successful read fit,
what it writes is what its read delivered without error. -/
theorem iteration_accepted (b : Buf) (it : Iter)
    (hfit : it.read.err = none →
      it.read.data.length ≤ bufSize ∧ WritesFit it.writes it.read.data.length) :
    accepted (iteration b it).1 = deliveredOk (iteration b it).1 := by
  by_cases hc : it.cancelled = true
  · simp [iteration, hc, accepted, deliveredOk]
  · cases hd : it.deadline with
    | some e => simp [iteration, hc, hd, accepted, deliveredOk]
    | none =>
      cases he : it.read.err with
      | some e =>
        simp only [iteration, hc, hd, he]
        split_ifs <;> simp [accepted, deliveredOk]
      | none =>
        have hfl : it.flows := by
          obtain ⟨h1, h2⟩ := hfit he
          exact ⟨by simpa using hc, hd, Or.inr ⟨he, h1, h2⟩⟩
        obtain ⟨tr, hi, _, hacc, _⟩ := iteration_flows b it hfl
        rw [hi]
        exact hacc

theorem mainLoop_accepted (s : List Iter) :
    ∀ b : Buf, (∀ it ∈ s, it.read.err = none →
        it.read.data.length ≤ bufSize ∧ WritesFit it.writes it.read.data.length) →
      accepted (mainLoop b s).1 = deliveredOk (mainLoop b s).1 := by
  induction s with
  | nil => intro b _; rfl
  | cons it s ih =>
    intro b h
    have h1 := iteration_accepted b it (h it (by simp))
    rw [mainLoop]
    rcases hit : iteration b it with ⟨t, b2, f⟩
    rw [hit] at h1
    cases f with
    | next =>
      simp only [accepted_append, deliveredOk_append]
      rw [h1, ih b2 (fun x hx => h x (by simp [hx]))]
    | exit o => exact h1

theorem writeLoop_no_close (b : Buf) (nb : Int) (ws : List WriteResult) :
    ∀ wc : Int, ∀ e ∈ (writeLoop b nb wc ws).1, e ≠ .close := by
  induction ws with
  | nil =>
    intro wc e he
    unfold writeLoop at he
    split_ifs at he <;> simp at he
  | cons w rest ih =>
    intro wc e
    rw [writeLoop]
    by_cases c1 : wc < nb
    · by_cases c2 : wc < 0 ∨ (bufSize : Int) < nb
      · simp [c1, c2]
      · simp only [c1, c2, if_true, if_false]
        by_cases c3 : w.err = some .eof
        · simp only [c3, if_true]
          intro he
          simp at he; simp [he]
        · simp only [c3, if_false]
          cases herr : w.err with
          | some x =>
            simp only
            intro he
            simp at he; simp [he]
          | none =>
            simp only
            by_cases c4 : w.n < 0
            · simp only [c4, if_true]
              intro he
              simp at he; simp [he]
            · by_cases c5 : w.n = 0
              · simp only [c5, if_true]
                intro he
                simp at he; simp [he]
              · simp only [c4, c5, if_false]
                intro he
                rcases List.mem_cons.mp he with h | h
                · simp [h]
                · exact ih _ e h
    · simp [c1]

theorem iteration_no_close (b : Buf) (it : Iter) :
    ∀ e ∈ (iteration b it).1, e ≠ .close := by
  intro e
  unfold iteration
  by_cases c1 : it.cancelled = true
  · simp only [c1, if_true]
    intro he
    simp at he; simp [he]
  · rw [if_neg c1]
    cases hd : it.deadline with
    | some x =>
      simp only
      intro he
      simp at he
      rcases he with h | h <;> simp [h]
    | none =>
      simp only
      cases herr : it.read.err with
      | some x =>
        simp only
        intro he
        have he2 : e ∈ [Event.ctxDone false, .setReadDeadline none,
            .read it.read.data (some x)] := by
          split_ifs at he <;> exact he
        simp at he2
        rcases he2 with h | h | h <;> simp [h]
      | none =>
        simp only
        intro he
        rcases List.mem_append.mp he with h | h
        · simp at h
          rcases h with h | h | h <;> simp [h]
        · exact writeLoop_no_close _ _ _ _ e h

theorem mainLoop_no_close (s : List Iter) :
    ∀ b : Buf, ∀ e ∈ (mainLoop b s).1, e ≠ .close := by
  induction s with
  | nil => intro b e he; simp [mainLoop] at he
  | cons it s ih =>
    intro b e he
    rw [mainLoop] at he
    have h1 := iteration_no_close b it
    rcases hit : iteration b it with ⟨t, b2, f⟩
    rw [hit] at he h1
    cases f with
    | next =>
      rcases List.mem_append.mp he with h | h
      · exact h1 e h
      · exact ih b2 e h
    | exit o => exact h1 e he

theorem acceptLoop_outcome (a : Bool) (steps : List AcceptResult) :
    (acceptLoop a steps).outcome = .pending ∨ (acceptLoop a steps).outcome = .returned none := by
  induction steps with
  | nil => left; rfl
  | cons x rest ih =>
    cases x with
    | conn script => simpa [acceptLoop] using ih
    | fail e c =>
      cases c with
      | true => right; simp [acceptLoop]
      | false => simpa [acceptLoop] using ih

/-- Answers that do not make the supervisor return are all consumed: the loop goes
on with the rest. -/
theorem acceptLoop_append (a : Bool) (rest : List AcceptResult) (pre : List AcceptResult)
    (h : ∀ y ∈ pre, y.final = false) :
    (acceptLoop a (pre ++ rest)).outcome = (acceptLoop a rest).outcome
      ∧ (acceptLoop a (pre ++ rest)).accepts = pre.length + (acceptLoop a rest).accepts
      ∧ (acceptLoop a (pre ++ rest)).handlers.length
          = (pre.filter (fun y => y.seen.isNone)).length + (acceptLoop a rest).handlers.length := by
  induction pre with
  | nil => simp
  | cons x pre ih =>
    obtain ⟨h1, h2, h3⟩ := ih (fun y hy => h y (by simp [hy]))
    cases x with
    | conn script =>
      simp [acceptLoop, h1, h2, h3, AcceptResult.seen]
      omega
    | fail e c =>
      have hc : c = false := by simpa [AcceptResult.final] using h (.fail e c) (by simp)
      subst hc
      simp [acceptLoop, h1, h2, h3, AcceptResult.seen]
      omega

/-- When the accept loop has returned, it did so at the first failure that found the
context cancelled. -/
theorem acceptLoop_returned (a : Bool) (steps : List AcceptResult) (r : Option GoError)
    (h : (acceptLoop a steps).outcome = .returned r) :
    r = none ∧ ∃ pre e rest, steps = pre ++ .fail e true :: rest
      ∧ (∀ y ∈ pre, y.final = false) ∧ (acceptLoop a steps).accepts = pre.length + 1 := by
  induction steps with
  | nil => simp [acceptLoop] at h
  | cons x rest ih =>
    cases x with
    | conn script =>
      have h2 : (acceptLoop a rest).outcome = .returned r := by simpa [acceptLoop] using h
      obtain ⟨hr, pre, e, rest2, hs, hp, hn⟩ := ih h2
      refine ⟨hr, .conn script :: pre, e, rest2, by simp [hs], ?_, by simp [acceptLoop, hn]⟩
      intro y hy
      rcases List.mem_cons.mp hy with h3 | h3
      · subst h3; rfl
      · exact hp y h3
    | fail e c =>
      cases c with
      | true =>
        refine ⟨?_, [], e, rest, rfl, by simp, by simp [acceptLoop]⟩
        simp [acceptLoop] at h
        exact h.symm
      | false =>
        have h2 : (acceptLoop a rest).outcome = .returned r := by simpa [acceptLoop] using h
        obtain ⟨hr, pre, e2, rest2, hs, hp, hn⟩ := ih h2
        refine ⟨hr, .fail e false :: pre, e2, rest2, by simp [hs], ?_, by simp [acceptLoop, hn]⟩
        intro y hy
        rcases List.mem_cons.mp hy with h3 | h3
        · subst h3; rfl
        · exact hp y h3

/-- The result and the number of accepts do not depend on the connections behind
the successful accepts, hence not on what their handlers do or return. -/
theorem acceptLoop_seen (a : Bool) (steps : List AcceptResult) :
    ∀ steps1 : List AcceptResult, steps.map AcceptResult.seen = steps1.map AcceptResult.seen →
      (acceptLoop a steps).outcome = (acceptLoop a steps1).outcome
        ∧ (acceptLoop a steps).accepts = (acceptLoop a steps1).accepts := by
  induction steps with
  | nil =>
    intro steps1 h
    cases steps1 with
    | nil => simp
    | cons y r => simp at h
  | cons x rest ih =>
    intro steps1 h
    cases steps1 with
    | nil => simp at h
    | cons y rest1 =>
      simp only [List.map_cons, List.cons.injEq] at h
      obtain ⟨hx, hr⟩ := h
      obtain ⟨h1, h2⟩ := ih rest1 hr
      cases x with
      | conn sx =>
        cases y with
        | conn sy => simp [acceptLoop, h1, h2]
        | fail e c => simp [AcceptResult.seen] at hx
      | fail e c =>
        cases y with
        | conn sy => simp [AcceptResult.seen] at hx
        | fail e1 c1 =>
          simp [AcceptResult.seen] at hx
          obtain ⟨_, hc⟩ := hx
          subst hc
          cases c <;> simp [acceptLoop, h1, h2]

theorem digitsValue_cons (n : Nat) (c : Char) (cs : List Char) :
    digitsValue n (c :: cs) = digitsValue (n * 10 + (c.toNat - 48)) cs := rfl

theorem parseUintLoop_cons (n : Nat) (c : Char) (cs : List Char) :
    parseUintLoop n (c :: cs)
      = match (if 48 ≤ c.toNat ∧ c.toNat ≤ 57 then some (c.toNat - 48)
          else if 97 ≤ c.toNat ||| 32 ∧ c.toNat ||| 32 ≤ 122
            then some ((c.toNat ||| 32) - 97 + 10)
          else none : Option Nat) with
        | none => (0, some .invalid)
        | some d =>
          if d ≥ 10 then (0, some .invalid)
          else if n ≥ maxUint64 / 10 + 1 then (2 ^ 16 - 1, some .range)
          else
            if (n * 10 % 2 ^ 64 + d) % 2 ^ 64 < n * 10 % 2 ^ 64
                ∨ (n * 10 % 2 ^ 64 + d) % 2 ^ 64 > 2 ^ 16 - 1
              then (2 ^ 16 - 1, some .range)
            else parseUintLoop ((n * 10 % 2 ^ 64 + d) % 2 ^ 64) cs := rfl

theorem digitsValue_ge (cs : List Char) : ∀ n, n ≤ digitsValue n cs := by
  induction cs with
  | nil => intro n; exact Nat.le_refl n
  | cons c cs ih =>
    intro n
    have := ih (n * 10 + (c.toNat - 48))
    rw [digitsValue_cons]
    omega

/-- On decimal digits the loop of `ParseUint` computes the number written, or
reports a range error when that number exceeds 65535. -/
theorem parseUintLoop_digits (cs : List Char) :
    ∀ n, n ≤ 65535 → (∀ c ∈ cs, isDecDigit c = true) →
      parseUintLoop n cs
        = if digitsValue n cs ≤ 65535 then (digitsValue n cs, none) else (65535, some .range) := by
  induction cs with
  | nil =>
    intro n hn _
    show (n, none) = if n ≤ 65535 then (n, none) else (65535, some NumError.range)
    simp [hn]
  | cons c cs ih =>
    intro n hn hd
    have hc : 48 ≤ c.toNat ∧ c.toNat ≤ 57 := by
      simpa [isDecDigit] using hd c (by simp)
    have hcut : ¬ (n ≥ maxUint64 / 10 + 1) := by
      simp only [maxUint64]
      norm_num
      omega
    have h10 : n * 10 % 2 ^ 64 = n * 10 := by
      apply Nat.mod_eq_of_lt
      norm_num
      omega
    have h1 : (n * 10 + (c.toNat - 48)) % 2 ^ 64 = n * 10 + (c.toNat - 48) := by
      apply Nat.mod_eq_of_lt
      norm_num
      omega
    have hdlt : ¬ (c.toNat - 48 ≥ 10) := by omega
    rw [parseUintLoop_cons, digitsValue_cons]
    simp only [hc, and_self, if_true, hdlt, if_false, hcut, h10, h1]
    by_cases hbig : n * 10 + (c.toNat - 48) > 2 ^ 16 - 1
    · have hge := digitsValue_ge cs (n * 10 + (c.toNat - 48))
      have : ¬ digitsValue (n * 10 + (c.toNat - 48)) cs ≤ 65535 := by
        norm_num at hbig
        omega
      have hbig2 : ¬ (n * 10 + (c.toNat - 48) ≤ 65535) := by
        norm_num at hbig
        omega
      simp [hbig, this, hbig2]
    · have hlt : ¬ (n * 10 + (c.toNat - 48) < n * 10) := by omega
      simp only [hbig, hlt, or_self, if_false]
      exact ih (n * 10 + (c.toNat - 48)) (by norm_num at hbig; omega)
        (fun x hx => hd x (by simp [hx]))

/-- A text with a character that is no decimal digit makes the loop of `ParseUint`
report an error. -/
theorem parseUintLoop_not_digits (cs : List Char) :
    ∀ n, cs.all isDecDigit = false → (parseUintLoop n cs).2 ≠ none := by
  induction cs with
  | nil => intro n h; simp at h
  | cons c cs ih =>
    intro n h
    rw [parseUintLoop_cons]
    by_cases hc : 48 ≤ c.toNat ∧ c.toNat ≤ 57
    · have hcs : cs.all isDecDigit = false := by
        have hcd : isDecDigit c = true := by simp [isDecDigit, hc]
        simpa [List.all_cons, hcd] using h
      simp only [hc, and_self, if_true]
      split_ifs
      · simp
      · simp
      · simp
      · exact ih _ hcs
    · simp only [hc, if_false]
      by_cases hl : 97 ≤ c.toNat ||| 32 ∧ c.toNat ||| 32 ≤ 122
      · simp only [hl, and_self, if_true]
        have : (c.toNat ||| 32) - 97 + 10 ≥ 10 := by omega
        simp [this]
      · simp [hl]

theorem parseUintLoop_range (cs : List Char) :
    ∀ n, (parseUintLoop n cs).2 = some .range → (parseUintLoop n cs).1 = 65535 := by
  induction cs with
  | nil => intro n h; exact absurd h (by simp [parseUintLoop])
  | cons c cs ih =>
    intro n
    rw [parseUintLoop_cons]
    split
    · simp
    · split_ifs
      · simp
      · simp
      · simp
      · exact ih _

/-- `ParseInt` reports no error exactly on the base-10 integers from -32768 to 32767,
and then returns the integer. -/
theorem ParseInt_ok (s : List Char) :
    ((ParseInt s).2 = none ↔
      (isDecimalInt s = true ∧ -32768 ≤ decimalValue s ∧ decimalValue s ≤ 32767))
    ∧ ((ParseInt s).2 = none → (ParseInt s).1 = decimalValue s) := by
  cases s with
  | nil => simp [ParseInt, isDecimalInt, unsignedPart]
  | cons c cs =>
    have hun : unsignedPart (c :: cs) = if c = '+' ∨ c = '-' then cs else c :: cs := rfl
    have hdv : decimalValue (c :: cs)
        = if c = '-' then -(digitsValue 0 (unsignedPart (c :: cs)) : Int)
          else (digitsValue 0 (unsignedPart (c :: cs)) : Int) := rfl
    have hpi : ParseInt (c :: cs)
        = if (ParseUint (unsignedPart (c :: cs))).2 ≠ none
              ∧ (ParseUint (unsignedPart (c :: cs))).2 ≠ some .range
            then (0, (ParseUint (unsignedPart (c :: cs))).2)
          else if decide (c = '-') = false ∧ (ParseUint (unsignedPart (c :: cs))).1 ≥ 2 ^ 15
            then (((2 ^ 15 : Nat) : Int) - 1, some .range)
          else if decide (c = '-') = true ∧ (ParseUint (unsignedPart (c :: cs))).1 > 2 ^ 15
            then (-((2 ^ 15 : Nat) : Int), some .range)
          else (if decide (c = '-') = true then -((ParseUint (unsignedPart (c :: cs))).1 : Int)
                else ((ParseUint (unsignedPart (c :: cs))).1 : Int), none) := rfl
    have hid : isDecimalInt (c :: cs) = (!(unsignedPart (c :: cs)).isEmpty
        && (unsignedPart (c :: cs)).all isDecDigit) := rfl
    generalize unsignedPart (c :: cs) = rest at hdv hpi hid
    have h15 : (2 : Nat) ^ 15 = 32768 := by norm_num
    rw [h15] at hpi
    cases rest with
    | nil =>
      have hpu : ParseUint [] = (0, some .invalid) := rfl
      rw [hpu] at hpi
      simp [hpi, hid]
    | cons x xs =>
      have hpu : ParseUint (x :: xs) = parseUintLoop 0 (x :: xs) := by simp [ParseUint]
      rw [hpu] at hpi
      by_cases hall : (x :: xs).all isDecDigit = true
      · have hL := parseUintLoop_digits (x :: xs) 0 (by norm_num)
          (by simpa using hall)
        have hid2 : isDecimalInt (c :: cs) = true := by
          rw [hid, hall]; rfl
        generalize digitsValue 0 (x :: xs) = V at hL hdv
        by_cases hV : V ≤ 65535
        · rw [if_pos hV] at hL
          rw [hL] at hpi
          by_cases hneg : c = '-'
          · subst hneg
            simp only [decide_True, if_true] at hpi hdv
            by_cases hr : V > 32768
            · simp [hpi, hr, hdv, hid2]
            · simp [hpi, hr, hdv, hid2]
              omega
          · simp only [hneg, decide_False, if_false] at hpi hdv
            by_cases hr : V ≥ 32768
            · simp [hpi, hr, hdv, hid2]
              omega
            · simp [hpi, hr, hdv, hid2]
              omega
        · rw [if_neg hV] at hL
          rw [hL] at hpi
          by_cases hneg : c = '-'
          · subst hneg
            simp only [decide_True, if_true] at hpi hdv
            simp [hpi, hdv, hid2]
            omega
          · simp only [hneg, decide_False, if_false] at hpi hdv
            simp [hpi, hdv, hid2]
            omega
      · have hall2 : (x :: xs).all isDecDigit = false := by simpa using hall
        have hne := parseUintLoop_not_digits (x :: xs) 0 hall2
        have hid2 : isDecimalInt (c :: cs) = false := by
          rw [hid, hall2]; simp
        have herr : (ParseInt (c :: cs)).2 ≠ none := by
          rw [hpi]
          by_cases hinv : (parseUintLoop 0 (x :: xs)).2 = some .range
          · have h1 := parseUintLoop_range (x :: xs) 0 hinv
            rw [h1]
            by_cases hneg : c = '-' <;> simp [hinv, hneg]
          · simp [hne, hinv]
        simp [herr, hid2]

/-! ## The handler and the announcer run together -/

theorem Tasks.step_announcer_eq (s : Tasks) (t p : Bool) (w : WriteResult) :
    s.step (.announcer t p w)
      = match s.announcer with
        | some false =>
          if s.ctxDone && (!t || p) then { s with announcer := some true }
          else if t then { s with atrace := s.atrace ++ [.write aliveMsg w.n w.err] }
          else s
        | _ => s := rfl

theorem Tasks.step_handler_eq (s : Tasks) (dl : Option IOError) (rd : ReadResult)
    (ws : List WriteResult) :
    s.step (.handler dl rd ws)
      = match s.flow with
        | .exit _ => s
        | .next =>
          { s with
            ctxDone := s.ctxDone || (iteration s.bbuf ⟨s.ctxDone, dl, rd, ws⟩).2.2.ended
            bbuf := (iteration s.bbuf ⟨s.ctxDone, dl, rd, ws⟩).2.1
            flow := (iteration s.bbuf ⟨s.ctxDone, dl, rd, ws⟩).2.2
            htrace := s.htrace ++ (iteration s.bbuf ⟨s.ctxDone, dl, rd, ws⟩).1 } := rfl

theorem Tasks.step_announcer_handler (s : Tasks) (t p : Bool) (w : WriteResult) :
    (s.step (.announcer t p w)).ctxDone = s.ctxDone
      ∧ (s.step (.announcer t p w)).bbuf = s.bbuf
      ∧ (s.step (.announcer t p w)).flow = s.flow
      ∧ (s.step (.announcer t p w)).htrace = s.htrace := by
  rw [Tasks.step_announcer_eq]
  split
  · split_ifs <;> exact ⟨rfl, rfl, rfl, rfl⟩
  · exact ⟨rfl, rfl, rfl, rfl⟩

theorem Tasks.step_handler_announcer (s : Tasks) (dl : Option IOError) (rd : ReadResult)
    (ws : List WriteResult) :
    (s.step (.handler dl rd ws)).announcer = s.announcer
      ∧ (s.step (.handler dl rd ws)).atrace = s.atrace := by
  rw [Tasks.step_handler_eq]
  split <;> exact ⟨rfl, rfl⟩

theorem Tasks.step_handler_exit (s : Tasks) (o : Outcome) (h : s.flow = .exit o)
    (dl : Option IOError) (rd : ReadResult) (ws : List WriteResult) :
    s.step (.handler dl rd ws) = s := by
  rw [Tasks.step_handler_eq, h]

theorem Tasks.step_handler_next (s : Tasks) (h : s.flow = .next)
    (dl : Option IOError) (rd : ReadResult) (ws : List WriteResult) :
    s.step (.handler dl rd ws)
      = { s with
          ctxDone := s.ctxDone || (iteration s.bbuf ⟨s.ctxDone, dl, rd, ws⟩).2.2.ended
          bbuf := (iteration s.bbuf ⟨s.ctxDone, dl, rd, ws⟩).2.1
          flow := (iteration s.bbuf ⟨s.ctxDone, dl, rd, ws⟩).2.2
          htrace := s.htrace ++ (iteration s.bbuf ⟨s.ctxDone, dl, rd, ws⟩).1 } := by
  rw [Tasks.step_handler_eq, h]

/-- Once the handler is out of its loop, no step adds to its trace or changes its
outcome. -/
theorem run_handler_exit (sched : List Sched) :
    ∀ (s : Tasks) (o : Outcome), s.flow = .exit o →
      (sched.foldl Tasks.step s).flow = .exit o
        ∧ (sched.foldl Tasks.step s).htrace = s.htrace := by
  induction sched with
  | nil => intro s o h; exact ⟨h, rfl⟩
  | cons x rest ih =>
    intro s o h
    rw [List.foldl_cons]
    cases x with
    | cancel => exact ih _ o h
    | handler dl rd ws =>
      rw [Tasks.step_handler_exit s o h]
      exact ih s o h
    | announcer t p w =>
      obtain ⟨_, _, h3, h4⟩ := Tasks.step_announcer_handler s t p w
      obtain ⟨i1, i2⟩ := ih (s.step (.announcer t p w)) o (by rw [h3, h])
      exact ⟨i1, by rw [i2, h4]⟩

/-- Along any schedule the handler does what `mainLoop` does against the answers the
schedule gives to the handler; the steps of the announcer play no part. -/
theorem run_handler (sched : List Sched) :
    ∀ s : Tasks, s.flow = .next →
      (sched.foldl Tasks.step s).htrace
          = s.htrace ++ (mainLoop s.bbuf (handlerScript s.ctxDone sched)).1
        ∧ (sched.foldl Tasks.step s).flow.outcome
          = (mainLoop s.bbuf (handlerScript s.ctxDone sched)).2 := by
  induction sched with
  | nil =>
    intro s h
    simp [handlerScript, mainLoop, h, Flow.outcome]
  | cons x rest ih =>
    intro s h
    rw [List.foldl_cons]
    cases x with
    | cancel =>
      have := ih (s.step .cancel) h
      exact this
    | handler dl rd ws =>
      rw [Tasks.step_handler_next s h]
      rw [handlerScript, mainLoop]
      rcases hit : iteration s.bbuf ⟨s.ctxDone, dl, rd, ws⟩ with ⟨tr, b1, f⟩
      cases f with
      | next =>
        obtain ⟨i1, i2⟩ := ih { s with
          ctxDone := s.ctxDone || Flow.next.ended
          bbuf := b1
          flow := .next
          htrace := s.htrace ++ tr } rfl
        have hc : (s.ctxDone || Flow.next.ended) = s.ctxDone := by simp [Flow.ended]
        simp only [hc] at i1 i2
        simp only [hc]
        exact ⟨by rw [i1, List.append_assoc], i2⟩
      | exit o =>
        obtain ⟨i1, i2⟩ := run_handler_exit rest { s with
          ctxDone := s.ctxDone || (Flow.exit o).ended
          bbuf := b1
          flow := .exit o
          htrace := s.htrace ++ tr } o rfl
        exact ⟨i2, by rw [i1]; rfl⟩
    | announcer t p w =>
      obtain ⟨h1, h2, h3, h4⟩ := Tasks.step_announcer_handler s t p w
      obtain ⟨i1, i2⟩ := ih (s.step (.announcer t p w)) (by rw [h3, h])
      rw [h1, h2, h4] at i1
      rw [h1, h2] at i2
      exact ⟨i1, i2⟩

theorem announcerTask_stop (t d p : Bool) (w : WriteResult) (rest : List Select)
    (h : (d && (!t || p)) = true) :
    announcerTask (⟨t, d, p, w⟩ :: rest) = ⟨[], true⟩ := by
  rw [announcerTask]
  cases t <;> cases d <;> cases p <;> simp_all

theorem announcerTask_tick (t d p : Bool) (w : WriteResult) (rest : List Select)
    (h : ¬ (d && (!t || p)) = true) (ht : t = true) :
    announcerTask (⟨t, d, p, w⟩ :: rest)
      = ⟨.write aliveMsg w.n w.err :: (announcerTask rest).trace,
          (announcerTask rest).stopped⟩ := by
  rw [announcerTask]
  cases t <;> cases d <;> cases p <;> simp_all

theorem announcerTask_wait (t d p : Bool) (w : WriteResult) (rest : List Select)
    (h : ¬ (d && (!t || p)) = true) (ht : ¬ t = true) :
    announcerTask (⟨t, d, p, w⟩ :: rest) = announcerTask rest := by
  rw [announcerTask]
  cases t <;> cases d <;> cases p <;> simp_all

theorem run_flow_ended (sched : List Sched) (s : Tasks) (h : s.flow.ended = true) :
    (sched.foldl Tasks.step s).flow.ended = true := by
  cases hf : s.flow with
  | next => rw [hf] at h; cases h
  | exit o =>
    rw [(run_handler_exit sched s o hf).1, ← hf]
    exact h

/-- An announcer that is not running (never started, or returned) does nothing. -/
theorem run_announcer_idle (sched : List Sched) :
    ∀ s : Tasks, s.announcer ≠ some false →
      (sched.foldl Tasks.step s).announcer = s.announcer
        ∧ (sched.foldl Tasks.step s).atrace = s.atrace := by
  induction sched with
  | nil => intro s _; exact ⟨rfl, rfl⟩
  | cons x rest ih =>
    intro s h
    rw [List.foldl_cons]
    cases x with
    | cancel => exact ih (s.step .cancel) h
    | handler dl rd ws =>
      obtain ⟨h1, h2⟩ := Tasks.step_handler_announcer s dl rd ws
      obtain ⟨i1, i2⟩ := ih (s.step (.handler dl rd ws)) (by rw [h1]; exact h)
      exact ⟨by rw [i1, h1], by rw [i2, h2]⟩
    | announcer t p w =>
      have hs : s.step (.announcer t p w) = s := by
        rw [Tasks.step_announcer_eq]
        split
        · rename_i heq
          exact absurd heq h
        · rfl
      rw [hs]
      exact ih s h

/-- A running announcer does along any schedule what `announcerTask` does against
what its `select`s find. -/
theorem run_announcer (sched : List Sched) :
    ∀ s : Tasks, s.announcer = some false →
      (sched.foldl Tasks.step s).atrace
          = s.atrace ++ (announcerTask (announcerSelects s sched)).trace
        ∧ (sched.foldl Tasks.step s).announcer
          = some (announcerTask (announcerSelects s sched)).stopped := by
  induction sched with
  | nil =>
    intro s h
    simp [announcerSelects, announcerTask, h]
  | cons x rest ih =>
    intro s h
    rw [List.foldl_cons]
    cases x with
    | cancel => exact ih (s.step .cancel) h
    | handler dl rd ws =>
      obtain ⟨h1, h2⟩ := Tasks.step_handler_announcer s dl rd ws
      obtain ⟨i1, i2⟩ := ih (s.step (.handler dl rd ws)) (by rw [h1]; exact h)
      rw [h2] at i1
      exact ⟨i1, i2⟩
    | announcer t p w =>
      have hsel : announcerSelects s (.announcer t p w :: rest)
          = ⟨t, s.ctxDone, p, w⟩ :: announcerSelects (s.step (.announcer t p w)) rest := rfl
      have hst := Tasks.step_announcer_eq s t p w
      rw [h] at hst
      simp only at hst
      rw [hsel]
      by_cases c1 : (s.ctxDone && (!t || p)) = true
      · rw [if_pos c1] at hst
        rw [announcerTask_stop t s.ctxDone p w _ c1, hst]
        obtain ⟨i1, i2⟩ := run_announcer_idle rest { s with announcer := some true } (by simp)
        exact ⟨by rw [i2]; simp, by rw [i1]⟩
      · rw [if_neg c1] at hst
        by_cases c2 : t = true
        · rw [if_pos c2] at hst
          rw [announcerTask_tick t s.ctxDone p w _ c1 c2]
          obtain ⟨i1, i2⟩ := ih (s.step (.announcer t p w)) (by rw [hst])
          refine ⟨?_, i2⟩
          rw [i1, hst]
          simp
        · rw [if_neg c2] at hst
          rw [announcerTask_wait t s.ctxDone p w _ c1 c2]
          have := ih (s.step (.announcer t p w)) (by rw [hst]; exact h)
          rw [hst] at this ⊢
          exact this

theorem run_announcer_isSome (sched : List Sched) :
    ∀ s : Tasks, (sched.foldl Tasks.step s).announcer.isSome = s.announcer.isSome := by
  intro s
  by_cases h : s.announcer = some false
  · rw [(run_announcer sched s h).2, h]
    rfl
  · rw [(run_announcer_idle sched s h).1]

theorem Tasks.step_ctxDone (s : Tasks) (x : Sched) (h : s.ctxDone = true) :
    (s.step x).ctxDone = true := by
  cases x with
  | cancel => rfl
  | handler dl rd ws =>
    rw [Tasks.step_handler_eq]
    split
    · exact h
    · simp [h]
  | announcer t p w => rw [(Tasks.step_announcer_handler s t p w).1, h]

theorem run_ctxDone (sched : List Sched) :
    ∀ s : Tasks, s.ctxDone = true → (sched.foldl Tasks.step s).ctxDone = true := by
  induction sched with
  | nil => intro s h; exact h
  | cons x rest ih =>
    intro s h
    exact ih (s.step x) (Tasks.step_ctxDone s x h)

/-- The `Done()` channel of the derived context is closed exactly when the passed
context was cancelled or the handler has left `Run`. -/
theorem run_ctx (sched : List Sched) :
    ∀ s : Tasks, (s.flow.ended = true → s.ctxDone = true) →
      (sched.foldl Tasks.step s).ctxDone
        = (s.ctxDone || sched.any Sched.isCancel || (sched.foldl Tasks.step s).flow.ended) := by
  induction sched with
  | nil =>
    intro s h
    cases hc : s.ctxDone with
    | true => simp [hc]
    | false =>
      cases he : s.flow.ended with
      | true => rw [h he] at hc; cases hc
      | false => simp [hc, he]
  | cons x rest ih =>
    intro s h
    rw [List.foldl_cons]
    cases x with
    | cancel =>
      have h1 : (s.step .cancel).ctxDone = true := rfl
      rw [run_ctxDone rest _ h1]
      simp [Sched.isCancel]
    | handler dl rd ws =>
      have hinv : (s.step (.handler dl rd ws)).flow.ended = true →
          (s.step (.handler dl rd ws)).ctxDone = true := by
        rw [Tasks.step_handler_eq]
        split
        · exact h
        · intro h2
          simp only at h2
          simp [h2]
      rw [ih _ hinv]
      cases hc : s.ctxDone with
      | true =>
        rw [Tasks.step_ctxDone s _ hc]
        simp
      | false =>
        have hcs : (s.step (.handler dl rd ws)).ctxDone
            = (s.step (.handler dl rd ws)).flow.ended := by
          rw [Tasks.step_handler_eq]
          split
          · rename_i o heq
            rw [hc]
            cases he : s.flow.ended with
            | true => rw [h he] at hc; cases hc
            | false => rfl
          · simp [hc]
        rw [hcs]
        cases hfe : (s.step (.handler dl rd ws)).flow.ended with
        | false => simp [Sched.isCancel]
        | true =>
          rw [run_flow_ended rest _ hfe]
          simp
    | announcer t p w =>
      obtain ⟨h1, _, h3, _⟩ := Tasks.step_announcer_handler s t p w
      rw [ih _ (by rw [h1, h3]; exact h), h1]
      simp [Sched.isCancel]

theorem Tasks.step_agree (s s1 : Tasks) (x x1 : Sched) (h : s.agree s1)
    (hx : x.timing = x1.timing) : (s.step x).agree (s1.step x1) := by
  obtain ⟨h1, h2, h3, h4, h5, h6⟩ := h
  cases x with
  | cancel =>
    cases x1 with
    | cancel => exact ⟨rfl, h2, h3, h4, h5, h6⟩
    | handler dl rd ws => simp [Sched.timing] at hx
    | announcer t p w => simp [Sched.timing] at hx
  | handler dl rd ws =>
    cases x1 with
    | cancel => simp [Sched.timing] at hx
    | announcer t p w => simp [Sched.timing] at hx
    | handler dl1 rd1 ws1 =>
      simp only [Sched.timing, Sched.handler.injEq] at hx
      obtain ⟨e1, e2, e3⟩ := hx
      subst e1; subst e2; subst e3
      rw [Tasks.step_handler_eq, Tasks.step_handler_eq, ← h1, ← h2, ← h3]
      cases s.flow with
      | exit o => exact ⟨h1, h2, h3, h4, h5, h6⟩
      | next => exact ⟨rfl, rfl, rfl, by simp only [h4], h5, h6⟩
  | announcer t p w =>
    cases x1 with
    | cancel => simp [Sched.timing] at hx
    | handler dl rd ws => simp [Sched.timing] at hx
    | announcer t1 p1 w1 =>
      simp only [Sched.timing, Sched.announcer.injEq, and_true] at hx
      obtain ⟨e1, e2⟩ := hx
      subst e1; subst e2
      rw [Tasks.step_announcer_eq, Tasks.step_announcer_eq, ← h1, ← h5]
      cases s.announcer with
      | none => exact ⟨h1, h2, h3, h4, h5, h6⟩
      | some r =>
        cases r with
        | true => exact ⟨h1, h2, h3, h4, h5, h6⟩
        | false =>
          simp only
          split_ifs
          · exact ⟨rfl, h2, h3, h4, rfl, h6⟩
          · exact ⟨rfl, h2, h3, h4, rfl, by simp [h6]⟩
          · exact ⟨h1, h2, h3, h4, h5, h6⟩

/-- What the connection answers to the writes of the announcer changes nothing but
the answers recorded in the trace of the announcer. -/
theorem run_agree (sched : List Sched) :
    ∀ (sched1 : List Sched) (s s1 : Tasks), s.agree s1 →
      sched.map Sched.timing = sched1.map Sched.timing →
      (sched.foldl Tasks.step s).agree (sched1.foldl Tasks.step s1) := by
  induction sched with
  | nil =>
    intro sched1 s s1 h hm
    cases sched1 with
    | nil => exact h
    | cons y r => simp at hm
  | cons x rest ih =>
    intro sched1 s s1 h hm
    cases sched1 with
    | nil => simp at hm
    | cons y r =>
      simp only [List.map_cons, List.cons.injEq] at hm
      exact ih r _ _ (Tasks.step_agree s s1 x y h hm.1) hm.2

/-- The announcer writes nothing but the payload. -/
theorem run_payload (sched : List Sched) :
    ∀ s : Tasks, (∀ e ∈ s.atrace, ∃ n err, e = Event.write aliveMsg n err) →
      ∀ e ∈ (sched.foldl Tasks.step s).atrace, ∃ n err, e = Event.write aliveMsg n err := by
  induction sched with
  | nil => intro s h; exact h
  | cons x rest ih =>
    intro s h
    rw [List.foldl_cons]
    apply ih
    cases x with
    | cancel => exact h
    | handler dl rd ws =>
      rw [(Tasks.step_handler_announcer s dl rd ws).2]
      exact h
    | announcer t p w =>
      rw [Tasks.step_announcer_eq]
      split
      · split_ifs
        · exact h
        · intro e he
          rcases List.mem_append.mp he with h1 | h1
          · exact h e h1
          · simp at h1
            exact ⟨_, _, h1⟩
        · exact h
      · exact h

theorem Flow.ended_eq (f : Flow) :
    f.ended = (match f.outcome with
      | .pending => false
      | _ => true) := by
  cases f with
  | next => rfl
  | exit o => cases o <;> rfl

/-! ## The claims -/

/-- C1 (partial-write delivery). At any iteration of `echoer.Run` reached by the
script, a successful read of at most 1 MiB followed by error-free write answers
with positive counts no larger than the slice offered yields, right after the
read, a block `W` of write calls only: each call offers the part of the data not
yet accepted, the accepted bytes are the data read in order, there are at most as
many calls as bytes, and the operations of the following iterations (so any
further read) come after the whole block. -/
theorem partial_write_delivery (a : Bool) (pre : List Iter) (it : Iter) (rest : List Iter)
    (tr0 : List Event) (b0 : Buf)
    (hpre : runsThrough Buf.init pre = some (tr0, b0))
    (hc : it.cancelled = false) (hd : it.deadline = none) (he : it.read.err = none)
    (h2 : it.read.data.length ≤ bufSize)
    (hw : WritesFit it.writes it.read.data.length) :
    ∃ W : List Event,
      (echoer.Run a (pre ++ it :: rest)).trace
          = tr0 ++ [.ctxDone false, .setReadDeadline none, .read it.read.data none] ++ W
              ++ (mainLoop (b0.store it.read.data) rest).1
      ∧ (echoer.Run a (pre ++ it :: rest)).outcome = (mainLoop (b0.store it.read.data) rest).2
      ∧ (∀ e ∈ W, ∃ p n, e = .write p n none)
      ∧ (∀ pre1 p n err post, W = pre1 ++ .write p n err :: post →
          p = it.read.data.drop (accepted pre1).length)
      ∧ accepted W = it.read.data
      ∧ W.length ≤ it.read.data.length := by
  obtain ⟨W, hW, hall, hoff, hacc, hcnt⟩ :=
    writeLoop_fit b0 it.read.data h2 it.writes 0 (Nat.zero_le _) (by simpa using hw)
  have hiter : iteration b0 it
      = ([.ctxDone false, .setReadDeadline none, .read it.read.data none] ++ W,
          b0.store it.read.data, .next) := by
    have hW2 : writeLoop (b0.store it.read.data) (↑it.read.data.length) 0 it.writes
        = (W, .next) := by simpa using hW
    simp [iteration, hc, hd, he, hW2]
  obtain ⟨ht, ho⟩ := Run_append a pre (it :: rest) tr0 b0 hpre
  refine ⟨W, ?_, ?_, hall, ?_, ?_, ?_⟩
  · rw [ht, mainLoop, hiter]
    simp
  · rw [ho, mainLoop, hiter]
  · intro pre1 p n err post h
    simpa using hoff pre1 p n err post h
  · simpa using hacc
  · simpa using hcnt

theorem partial_write_delivery_witness :
    WritesFit chunkIter.writes 3 ∧
    ∃ W : List Event,
      (echoer.Run false ([timeoutIter] ++ chunkIter :: [eofIter])).trace
          = [.ctxDone false, .setReadDeadline none, .read [] (some (.net true 0))]
              ++ [.ctxDone false, .setReadDeadline none, .read [1, 2, 3] none] ++ W
              ++ (mainLoop ((Buf.init.store []).store [1, 2, 3]) [eofIter]).1
      ∧ (echoer.Run false ([timeoutIter] ++ chunkIter :: [eofIter])).outcome
          = (mainLoop ((Buf.init.store []).store [1, 2, 3]) [eofIter]).2
      ∧ (∀ e ∈ W, ∃ p n, e = .write p n none)
      ∧ (∀ pre1 p n err post, W = pre1 ++ .write p n err :: post →
          p = [1, 2, 3].drop (accepted pre1).length)
      ∧ accepted W = [1, 2, 3]
      ∧ W.length ≤ 3 :=
  ⟨by decide,
   partial_write_delivery false [timeoutIter] chunkIter [eofIter] _ _ rfl rfl rfl rfl
     (by decide) (by decide)⟩

/-- C4 (zero or negative write count aborts the handler). Whenever a write call of
`echoer.Run` reports no error and a count `n ≤ 0`, that call is the last
operation of the run, and `echoer.Run` has returned the error made by `errors.New` with
the message for zero or for negative counts, which is neither nil nor an error
value of the transport. -/
theorem nonpositive_write_count_aborts (a : Bool) (script : List Iter)
    (pre : List Event) (p : List Byte) (n : Int) (post : List Event)
    (htr : (echoer.Run a script).trace = pre ++ .write p n none :: post) (hn : n ≤ 0) :
    post = []
    ∧ (echoer.Run a script).outcome = .returned (some (.new
        (if n = 0 then "zero bytes indicated in write call"
          else "negative bytes indicated in write call")))
    ∧ (∀ e : IOError, (echoer.Run a script).outcome ≠ .returned (some (.conn e)))
    ∧ (echoer.Run a script).outcome ≠ .returned none := by
  have hends : (Event.write p n none).ends = some (.returned (some (.new
        (if n = 0 then "zero bytes indicated in write call"
          else "negative bytes indicated in write call")))) := by
    by_cases h0 : n = 0
    · simp [Event.ends, h0, errZero]
    · have : n < 0 := by omega
      simp [Event.ends, h0, this, errNegative]
  obtain ⟨h1, h2⟩ := (Run_shape a script).ends_last htr hends
  refine ⟨h1, h2, ?_, ?_⟩
  · intro e
    rw [h2]
    simp
  · rw [h2]
    simp

theorem nonpositive_write_count_aborts_witness :
    (echoer.Run false [⟨false, none, ⟨[1, 2, 3], none⟩, [⟨2, none⟩, ⟨0, none⟩, ⟨1, none⟩]⟩, eofIter]).trace
        = [.ctxDone false, .setReadDeadline none, .read [1, 2, 3] none, .write [1, 2, 3] 2 none]
            ++ .write [3] 0 none :: []
    ∧ (0 : Int) ≤ 0
    ∧ (echoer.Run false [⟨false, none, ⟨[1, 2, 3], none⟩, [⟨2, none⟩, ⟨0, none⟩, ⟨1, none⟩]⟩,
          eofIter]).outcome
        = .returned (some (.new "zero bytes indicated in write call")) :=
  ⟨by decide, by decide,
   (nonpositive_write_count_aborts false
      [⟨false, none, ⟨[1, 2, 3], none⟩, [⟨2, none⟩, ⟨0, none⟩, ⟨1, none⟩]⟩, eofIter]
      [.ctxDone false, .setReadDeadline none, .read [1, 2, 3] none, .write [1, 2, 3] 2 none]
      [3] 0 [] (by decide) (by decide)).2.1⟩

/-- C7 (cancellation is checked before any I/O of an iteration). At any iteration
reached by the script, when `ctx.Done()` is found closed, `echoer.Run` returns nil having
done only the operations of the earlier iterations: no deadline is set, nothing
is read or written, whatever the environment would have answered. In any run,
the observation of the closed `ctx.Done()` is the last operation. -/
theorem cancellation_checked_first (a : Bool) (pre : List Iter) (it : Iter)
    (rest : List Iter) (tr0 : List Event) (b0 : Buf)
    (hpre : runsThrough Buf.init pre = some (tr0, b0)) (hc : it.cancelled = true) :
    echoer.Run a (pre ++ it :: rest)
        = { trace := tr0 ++ [.ctxDone true], outcome := .returned none,
            announcer := a, cancelCalled := true }
    ∧ ∀ (script : List Iter) (before after : List Event),
        (echoer.Run a script).trace = before ++ .ctxDone true :: after →
          after = [] ∧ (echoer.Run a script).outcome = .returned none := by
  constructor
  · have hm := mainLoop_append (it :: rest) pre Buf.init tr0 b0 hpre
    have hi : iteration b0 it = ([.ctxDone true], b0, .exit (.returned none)) := by
      simp [iteration, hc]
    simp [echoer.Run, hm, mainLoop, hi]
  · intro script before after h
    exact (Run_shape a script).ends_last h (by simp [Event.ends])

theorem cancellation_checked_first_witness :
    cancelledIter.cancelled = true
    ∧ echoer.Run true ([timeoutIter, chunkIter] ++ cancelledIter :: [chunkIter])
        = { trace := [.ctxDone false, .setReadDeadline none, .read [] (some (.net true 0)),
                      .ctxDone false, .setReadDeadline none, .read [1, 2, 3] none,
                      .write [1, 2, 3] 2 none, .write [3] 1 none] ++ [.ctxDone true],
            outcome := .returned none, announcer := true, cancelCalled := true } :=
  ⟨rfl, (cancellation_checked_first true [timeoutIter, chunkIter] cancelledIter [chunkIter]
      _ ((Buf.init.store []).store [1, 2, 3]) (by rfl) rfl).1⟩

/-- C5 (classification of the handler's result). `echoer.Run` has returned nil exactly
when its last operation is the observation of the cancelled context, a read that
reported end-of-stream or a write that reported end-of-stream. A read that times
out at an iteration reached by the script is followed by the next check of
`ctx.Done()` and by no write, or the handler is still waiting. A read reporting
any other error, and a write reporting any error other than end-of-stream, is the
last operation and `echoer.Run` has returned that error value. -/
theorem result_classification (a : Bool) (script : List Iter) :
    ((echoer.Run a script).outcome = .returned none ↔
        ∃ tr1 e, (echoer.Run a script).trace = tr1 ++ [e]
          ∧ (e = .ctxDone true ∨ (∃ d, e = .read d (some .eof))
              ∨ ∃ p n, e = .write p n (some .eof)))
    ∧ (∀ (pre : List Iter) (it : Iter) (rest : List Iter) (tr0 : List Event) (b0 : Buf)
        (e : IOError), script = pre ++ it :: rest →
        runsThrough Buf.init pre = some (tr0, b0) → it.cancelled = false →
        it.deadline = none → it.read.err = some e → e.isTimeout = true →
        (echoer.Run a script).trace
            = tr0 ++ [.ctxDone false, .setReadDeadline none, .read it.read.data (some e)]
                ++ (mainLoop (b0.store it.read.data) rest).1
          ∧ (echoer.Run a script).outcome = (mainLoop (b0.store it.read.data) rest).2
          ∧ (((mainLoop (b0.store it.read.data) rest).1 = []
                ∧ (mainLoop (b0.store it.read.data) rest).2 = .pending)
              ∨ ∃ c t, (mainLoop (b0.store it.read.data) rest).1 = .ctxDone c :: t))
    ∧ (∀ (before after : List Event) (d : List Byte) (e : IOError),
        (echoer.Run a script).trace = before ++ .read d (some e) :: after →
        e.isTimeout = false → e ≠ .eof →
        after = [] ∧ (echoer.Run a script).outcome = .returned (some (.conn e)))
    ∧ (∀ (before after : List Event) (p : List Byte) (n : Int) (e : IOError),
        (echoer.Run a script).trace = before ++ .write p n (some e) :: after → e ≠ .eof →
        after = [] ∧ (echoer.Run a script).outcome = .returned (some (.conn e))) := by
  refine ⟨⟨?_, ?_⟩, ?_, ?_, ?_⟩
  · intro h
    have hs := Run_shape a script
    rw [h] at hs
    obtain ⟨tr1, e, h1, h2⟩ := hs.returned_last
    refine ⟨tr1, e, h1, ?_⟩
    cases e with
    | ctxDone fired =>
      left
      cases fired with
      | true => rfl
      | false => simp [Event.ends] at h2
    | setReadDeadline err =>
      cases err <;> simp [Event.ends] at h2
    | read d err =>
      right; left
      cases err with
      | none => simp [Event.ends] at h2
      | some x =>
        by_cases c1 : x.isTimeout = true
        · simp [Event.ends, c1] at h2
        · by_cases c2 : x = .eof
          · exact ⟨d, by rw [c2]⟩
          · simp [Event.ends, c1, c2] at h2
    | write p n err =>
      right; right
      cases err with
      | none =>
        simp only [Event.ends] at h2
        split_ifs at h2 <;> simp [errNegative, errZero] at h2
      | some x =>
        by_cases c2 : x = .eof
        · exact ⟨p, n, by rw [c2]⟩
        · simp [Event.ends, c2] at h2
    | close => simp [Event.ends] at h2
  · rintro ⟨tr1, e, h1, h2⟩
    have he : e.ends = some (.returned none) := by
      rcases h2 with h | ⟨d, h⟩ | ⟨p, n, h⟩ <;> subst h <;> simp [Event.ends, IOError.isTimeout]
    exact ((Run_shape a script).ends_last h1 he).2
  · intro pre it rest tr0 b0 e hs hpre hc hd he ht
    subst hs
    obtain ⟨h1, h2⟩ := Run_append a pre (it :: rest) tr0 b0 hpre
    have hi : iteration b0 it
        = ([.ctxDone false, .setReadDeadline none, .read it.read.data (some e)],
            b0.store it.read.data, .next) := by
      simp [iteration, hc, hd, he, ht]
    refine ⟨?_, ?_, mainLoop_head _ _⟩
    · rw [h1, mainLoop, hi]; simp
    · rw [h2, mainLoop, hi]
  · intro before after d e h ht hne
    exact (Run_shape a script).ends_last h (by simp [Event.ends, ht, hne])
  · intro before after p n e h hne
    exact (Run_shape a script).ends_last h (by simp [Event.ends, hne])

theorem result_classification_witness :
    ((echoer.Run false [timeoutIter, ⟨false, none, ⟨[7], none⟩, [⟨1, some (.other 5)⟩]⟩]).trace
        = [.ctxDone false, .setReadDeadline none, .read [] (some (.net true 0)),
            .ctxDone false, .setReadDeadline none, .read [7] none]
            ++ .write [7] 1 (some (.other 5)) :: [])
    ∧ IOError.other 5 ≠ .eof
    ∧ (echoer.Run false [timeoutIter, ⟨false, none, ⟨[7], none⟩, [⟨1, some (.other 5)⟩]⟩]).outcome
        = .returned (some (.conn (.other 5))) :=
  ⟨by decide, by decide,
   ((result_classification false
      [timeoutIter, ⟨false, none, ⟨[7], none⟩, [⟨1, some (.other 5)⟩]⟩]).2.2.2
      [.ctxDone false, .setReadDeadline none, .read [] (some (.net true 0)),
        .ctxDone false, .setReadDeadline none, .read [7] none]
      [] [7] 1 (.other 5) (by decide) (by decide)).2⟩

/-- C2 (echo identity over a whole session). Alive announcement off, no
cancellation, a session of successful reads of at most 1 MiB and read timeouts,
error reads carrying no bytes, writes that succeed, ended by end-of-stream: `echoer.Run`
returns nil, no announcer runs, and the bytes accepted on the connection are the
bytes delivered by the reads, in order. For every cut of the session into an
earlier and a later part the trace is cut accordingly: the output of the earlier
reads lies wholly in the first part, that of the later reads in the second. -/
theorem echo_identity (s1 s2 : List Iter) (last : Iter)
    (hflow : ∀ it ∈ s1 ++ s2, it.flows)
    (hdata : ∀ it ∈ s1 ++ s2, it.read.err ≠ none → it.read.data = [])
    (hc : last.cancelled = false) (hd : last.deadline = none)
    (hl : last.read = ⟨[], some .eof⟩) :
    (echoer.Run false (s1 ++ s2 ++ [last])).outcome = .returned none
    ∧ (echoer.Run false (s1 ++ s2 ++ [last])).announcer = false
    ∧ accepted (echoer.Run false (s1 ++ s2 ++ [last])).trace = allBytes (s1 ++ s2 ++ [last])
    ∧ delivered (echoer.Run false (s1 ++ s2 ++ [last])).trace = allBytes (s1 ++ s2 ++ [last])
    ∧ ∃ t1 t2, (echoer.Run false (s1 ++ s2 ++ [last])).trace = t1 ++ t2
        ∧ delivered t1 = allBytes s1 ∧ accepted t1 = allBytes s1
        ∧ delivered t2 = allBytes s2 ∧ accepted t2 = allBytes s2 := by
  obtain ⟨t1, b1, hr1, hdel1, _, hall1⟩ :=
    runsThrough_flows s1 Buf.init (fun x hx => hflow x (by simp [hx]))
  obtain ⟨t2, b2, hr2, hdel2, _, hall2⟩ :=
    runsThrough_flows s2 b1 (fun x hx => hflow x (by simp [hx]))
  have hacc1 := hall1 (fun x hx => hdata x (by simp [hx]))
  have hacc2 := hall2 (fun x hx => hdata x (by simp [hx]))
  have hlast : mainLoop b2 [last]
      = ([.ctxDone false, .setReadDeadline none, .read [] (some .eof)], .returned none) := by
    simp [mainLoop, iteration, hc, hd, hl, IOError.isTimeout]
  have hm2 := mainLoop_append [last] s2 b1 t2 b2 hr2
  have hm1 := mainLoop_append (s2 ++ [last]) s1 Buf.init t1 b1 hr1
  rw [hm2, hlast] at hm1
  have htrace : (echoer.Run false (s1 ++ s2 ++ [last])).trace
      = t1 ++ (t2 ++ [.ctxDone false, .setReadDeadline none, .read [] (some .eof)]) := by
    simp [echoer.Run, List.append_assoc, hm1]
  have hbl : allBytes [last] = [] := by simp [allBytes, hl]
  refine ⟨?_, rfl, ?_, ?_, t1, t2 ++ [.ctxDone false, .setReadDeadline none, .read [] (some .eof)],
    htrace, hdel1, hacc1, ?_, ?_⟩
  · simp [echoer.Run, List.append_assoc, hm1]
  · rw [htrace]
    simp [accepted_append, allBytes_append, hacc1, hacc2, hbl, accepted]
  · rw [htrace]
    simp [delivered_append, allBytes_append, hdel1, hdel2, hbl, delivered]
  · simp [delivered_append, hdel2, delivered]
  · simp [accepted_append, hacc2, accepted]

theorem echo_identity_witness :
    (∀ it ∈ [timeoutIter, chunkIter] ++ [timeoutIter, chunkIter], it.flows)
    ∧ (∀ it ∈ [timeoutIter, chunkIter] ++ [timeoutIter, chunkIter],
        it.read.err ≠ none → it.read.data = [])
    ∧ (echoer.Run false ([timeoutIter, chunkIter] ++ [timeoutIter, chunkIter] ++ [eofIter])).outcome
        = .returned none
    ∧ accepted
        (echoer.Run false ([timeoutIter, chunkIter] ++ [timeoutIter, chunkIter] ++ [eofIter])).trace
        = [1, 2, 3, 1, 2, 3] :=
  ⟨by decide, by decide,
   (echo_identity [timeoutIter, chunkIter] [timeoutIter, chunkIter] eofIter
      (by decide) (by decide) rfl rfl rfl).1,
   (echo_identity [timeoutIter, chunkIter] [timeoutIter, chunkIter] eofIter
      (by decide) (by decide) rfl rfl rfl).2.2.1⟩

/-- C9 (bytes delivered together with an error are not echoed). At any iteration
reached by the script, a read that returns bytes together with an error is
followed by no write of that iteration: on a timeout the next operation is the
next check of `ctx.Done()` (or the handler waits), otherwise the read is the last
operation and `echoer.Run` has returned. When the writes after successful reads
succeed, the bytes accepted are those of the reads without error, so they equal
all the bytes read exactly when no read returned bytes together with an error. -/
theorem bytes_with_error_not_echoed (a : Bool) (script : List Iter) :
    (∀ (pre : List Iter) (it : Iter) (rest : List Iter) (tr0 : List Event) (b0 : Buf)
        (e : IOError), script = pre ++ it :: rest →
        runsThrough Buf.init pre = some (tr0, b0) → it.cancelled = false →
        it.deadline = none → it.read.err = some e → it.read.data ≠ [] →
        (e.isTimeout = true →
          (echoer.Run a script).trace
              = tr0 ++ [.ctxDone false, .setReadDeadline none, .read it.read.data (some e)]
                  ++ (mainLoop (b0.store it.read.data) rest).1
            ∧ (echoer.Run a script).outcome = (mainLoop (b0.store it.read.data) rest).2
            ∧ (((mainLoop (b0.store it.read.data) rest).1 = []
                  ∧ (mainLoop (b0.store it.read.data) rest).2 = .pending)
                ∨ ∃ c t, (mainLoop (b0.store it.read.data) rest).1 = .ctxDone c :: t))
        ∧ (e.isTimeout = false →
          (echoer.Run a script).trace
              = tr0 ++ [.ctxDone false, .setReadDeadline none, .read it.read.data (some e)]
            ∧ (echoer.Run a script).outcome
                = .returned (if e = .eof then none else some (.conn e))))
    ∧ ((∀ it ∈ script, it.read.err = none →
          it.read.data.length ≤ bufSize ∧ WritesFit it.writes it.read.data.length) →
        accepted (echoer.Run a script).trace = deliveredOk (echoer.Run a script).trace
        ∧ (accepted (echoer.Run a script).trace = delivered (echoer.Run a script).trace ↔
            ∀ d e, Event.read d (some e) ∈ (echoer.Run a script).trace → d = [])) := by
  constructor
  · intro pre it rest tr0 b0 e hs hpre hc hd he _
    subst hs
    obtain ⟨h1, h2⟩ := Run_append a pre (it :: rest) tr0 b0 hpre
    constructor
    · intro ht
      have hi : iteration b0 it
          = ([.ctxDone false, .setReadDeadline none, .read it.read.data (some e)],
              b0.store it.read.data, .next) := by
        simp [iteration, hc, hd, he, ht]
      refine ⟨?_, ?_, mainLoop_head _ _⟩
      · rw [h1, mainLoop, hi]; simp
      · rw [h2, mainLoop, hi]
    · intro ht
      have hi : iteration b0 it
          = ([.ctxDone false, .setReadDeadline none, .read it.read.data (some e)],
              b0.store it.read.data,
              .exit (.returned (if e = .eof then none else some (.conn e)))) := by
        by_cases c : e = .eof
        · subst c
          simp [iteration, hc, hd, he, IOError.isTimeout]
        · simp [iteration, hc, hd, he, ht, c]
      constructor
      · rw [h1, mainLoop, hi]
      · rw [h2, mainLoop, hi]
  · intro hfit
    have h := mainLoop_accepted script Buf.init hfit
    have h2 : accepted (echoer.Run a script).trace = deliveredOk (echoer.Run a script).trace := h
    refine ⟨h2, ?_⟩
    rw [h2]
    exact deliveredOk_eq_delivered_iff _

theorem bytes_with_error_not_echoed_witness :
    ((⟨false, none, ⟨[9, 9], some (.net true 0)⟩, [⟨2, none⟩]⟩ : Iter).read.data ≠ [])
    ∧ (echoer.Run false ([chunkIter] ++ ⟨false, none, ⟨[9, 9], some (.net true 0)⟩, [⟨2, none⟩]⟩
          :: [eofIter])).trace
        = [.ctxDone false, .setReadDeadline none, .read [1, 2, 3] none,
            .write [1, 2, 3] 2 none, .write [3] 1 none]
          ++ [.ctxDone false, .setReadDeadline none, .read [9, 9] (some (.net true 0))]
          ++ (mainLoop ((Buf.init.store [1, 2, 3]).store [9, 9]) [eofIter]).1
    ∧ accepted (echoer.Run false ([chunkIter] ++ ⟨false, none, ⟨[9, 9], some (.net true 0)⟩, [⟨2, none⟩]⟩
          :: [eofIter])).trace = [1, 2, 3]
    ∧ delivered (echoer.Run false ([chunkIter] ++ ⟨false, none, ⟨[9, 9], some (.net true 0)⟩, [⟨2, none⟩]⟩
          :: [eofIter])).trace = [1, 2, 3, 9, 9] :=
  ⟨by decide,
   (((bytes_with_error_not_echoed false
      ([chunkIter] ++ ⟨false, none, ⟨[9, 9], some (.net true 0)⟩, [⟨2, none⟩]⟩ :: [eofIter])).1
      [chunkIter] ⟨false, none, ⟨[9, 9], some (.net true 0)⟩, [⟨2, none⟩]⟩ [eofIter]
      _ (Buf.init.store [1, 2, 3]) (.net true 0) rfl (by rfl) rfl rfl rfl (by decide)).1 rfl).1,
   by decide, by decide⟩

/-- C3, as stated, fails: the handler of a connection whose peer closes ends, and
the goroutine started for the connection has issued no `Close` on it, so not
exactly one. -/
theorem connection_closed_once_fails :
    (connGoroutine false [chunkIter, eofIter]).finished = true
    ∧ ¬ ((connGoroutine false [chunkIter, eofIter]).trace.count .close = 1) := by
  decide

/-- C3, amended (no release of the connection by the server). For every accepted
connection and every way its handler ends or goes on, the operations of the
spawned goroutine on the connection contain no `Close`: they are the handler's
`SetReadDeadline`, `Read` and `Write` calls, next to its checks of `ctx.Done()`. -/
theorem connection_never_closed (a : Bool) (script : List Iter) :
    (connGoroutine a script).trace.count .close = 0
    ∧ (connGoroutine a script).trace = (echoer.Run a script).trace
    ∧ ∀ e ∈ (connGoroutine a script).trace,
        (∃ c, e = .ctxDone c) ∨ (∃ err, e = .setReadDeadline err)
          ∨ (∃ d err, e = .read d err) ∨ ∃ p n err, e = .write p n err := by
  have hno : ∀ e ∈ (connGoroutine a script).trace, e ≠ .close :=
    mainLoop_no_close script Buf.init
  refine ⟨?_, rfl, ?_⟩
  · rw [List.count_eq_zero]
    intro h
    exact hno _ h rfl
  · intro e he
    cases e with
    | ctxDone c => exact Or.inl ⟨c, rfl⟩
    | setReadDeadline err => exact Or.inr (Or.inl ⟨err, rfl⟩)
    | read d err => exact Or.inr (Or.inr (Or.inl ⟨d, err, rfl⟩))
    | write p n err => exact Or.inr (Or.inr (Or.inr ⟨p, n, err, rfl⟩))
    | close => exact absurd rfl (hno _ he)

/-- C6 (result of the connection supervisor). `tcpEchoServer.Run` has returned a
non-nil error exactly when `Listen` failed, and then it is that error and no
`Accept` was made. After a successful `Listen`, a return is a return of nil made
at the first `Accept` failure that found the context cancelled. Answers before
such a failure (failures with the context not cancelled, connections whatever
their handlers do) are all consumed and the loop goes on. Result and number of
accepts do not depend on the connections accepted, so not on their handlers. -/
theorem supervisor_result (a : Bool) (listen : Option IOError) (steps : List AcceptResult) :
    ((∃ e, (tcpEchoServer.Run a listen steps).outcome = .returned (some e)) ↔ listen ≠ none)
    ∧ (∀ e, listen = some e →
        tcpEchoServer.Run a listen steps = ⟨.returned (some (.conn e)), 0, []⟩)
    ∧ (∀ r, listen = none → (tcpEchoServer.Run a listen steps).outcome = .returned r →
        r = none ∧ ∃ pre e rest, steps = pre ++ .fail e true :: rest
          ∧ (∀ y ∈ pre, y.final = false)
          ∧ (tcpEchoServer.Run a listen steps).accepts = pre.length + 1)
    ∧ (∀ pre rest, listen = none → steps = pre ++ rest → (∀ y ∈ pre, y.final = false) →
        (tcpEchoServer.Run a listen steps).outcome = (tcpEchoServer.Run a none rest).outcome
          ∧ (tcpEchoServer.Run a listen steps).accepts = pre.length + (tcpEchoServer.Run a none rest).accepts
          ∧ (tcpEchoServer.Run a listen steps).handlers.length
              = (pre.filter (fun y => y.seen.isNone)).length
                  + (tcpEchoServer.Run a none rest).handlers.length)
    ∧ (∀ steps1 : List AcceptResult,
        steps.map AcceptResult.seen = steps1.map AcceptResult.seen →
        (tcpEchoServer.Run a listen steps).outcome = (tcpEchoServer.Run a listen steps1).outcome
          ∧ (tcpEchoServer.Run a listen steps).accepts = (tcpEchoServer.Run a listen steps1).accepts) := by
  refine ⟨⟨?_, ?_⟩, ?_, ?_, ?_, ?_⟩
  · rintro ⟨e, he⟩ hl
    subst hl
    rcases acceptLoop_outcome a steps with h | h
    · simp [tcpEchoServer.Run, h] at he
    · simp [tcpEchoServer.Run, h] at he
  · intro hl
    cases listen with
    | none => exact absurd rfl hl
    | some e => exact ⟨.conn e, rfl⟩
  · intro e hl
    subst hl
    rfl
  · intro r hl h
    subst hl
    exact acceptLoop_returned a steps r h
  · intro pre rest hl hs hp
    subst hl; subst hs
    exact acceptLoop_append a rest pre hp
  · intro steps1 h
    cases listen with
    | none => exact acceptLoop_seen a steps steps1 h
    | some e => exact ⟨rfl, rfl⟩

theorem supervisor_result_witness :
    (tcpEchoServer.Run true none [.fail (.other 1) false, .conn [chunkIter,
        ⟨false, none, ⟨[7], none⟩, [⟨0, none⟩]⟩], .fail (.other 2) true, .conn []]).outcome
      = .returned none
    ∧ ∃ pre e rest,
        [AcceptResult.fail (.other 1) false, .conn [chunkIter,
            ⟨false, none, ⟨[7], none⟩, [⟨0, none⟩]⟩], .fail (.other 2) true, .conn []]
          = pre ++ .fail e true :: rest
        ∧ (∀ y ∈ pre, y.final = false)
        ∧ (tcpEchoServer.Run true none [.fail (.other 1) false, .conn [chunkIter,
            ⟨false, none, ⟨[7], none⟩, [⟨0, none⟩]⟩], .fail (.other 2) true, .conn []]).accepts
          = pre.length + 1 :=
  ⟨by decide,
   ((supervisor_result true none [.fail (.other 1) false, .conn [chunkIter,
        ⟨false, none, ⟨[7], none⟩, [⟨0, none⟩]⟩], .fail (.other 2) true, .conn []]).2.2.1
      none rfl (by decide)).2⟩

/-- C8 (alive announcer). Handler, announcer and their context run together along
any schedule. The announcer exists exactly when `announceAlive` is set, and
without it nothing but the handler writes. The announcer writes only the six
bytes `alive\n`; it is `announcerTask` on what its `select`s find: a tick taken
makes exactly one write and leaves it running whatever the write reports, a
`select` with nothing ready leaves it waiting, a `select` that takes
`ctx.Done()` makes it return, after which it does nothing. The handler is
`echoer.Run` on the answers given to the handler alone; what the connection
answers to the announcer changes neither the handler nor the later course of
the announcer. `ctx.Done()` of the
announcer is closed exactly when the passed context was cancelled or `Run` has
left by a return or a panic; once `Run` has left, the first `select` that does
not take a simultaneous tick makes the announcer return, and it writes nothing
from then on. -/
theorem alive_announcer (a : Bool) (sched : List Sched) :
    ((connTasks a sched).announcer.isSome = true ↔ a = true)
    ∧ (a = false → (connTasks a sched).atrace = [])
    ∧ aliveMsg = [97, 108, 105, 118, 101, 10]
    ∧ (∀ e ∈ (connTasks a sched).atrace, ∃ n err, e = Event.write aliveMsg n err)
    ∧ (a = true →
        (connTasks a sched).atrace
            = (announcerTask (announcerSelects (Tasks.init a) sched)).trace
          ∧ (connTasks a sched).announcer
            = some (announcerTask (announcerSelects (Tasks.init a) sched)).stopped)
    ∧ (∀ (t p : Bool) (w : WriteResult), (connTasks a sched).announcer = some false →
        (t = true → ((connTasks a sched).ctxDone = false ∨ p = false) →
          (connTasks a (sched ++ [.announcer t p w])).atrace
              = (connTasks a sched).atrace ++ [.write aliveMsg w.n w.err]
            ∧ (connTasks a (sched ++ [.announcer t p w])).announcer = some false)
        ∧ ((connTasks a sched).ctxDone = true → (t = false ∨ p = true) →
          (connTasks a (sched ++ [.announcer t p w])).atrace = (connTasks a sched).atrace
            ∧ (connTasks a (sched ++ [.announcer t p w])).announcer = some true)
        ∧ (t = false → (connTasks a sched).ctxDone = false →
          (connTasks a (sched ++ [.announcer t p w])).atrace = (connTasks a sched).atrace
            ∧ (connTasks a (sched ++ [.announcer t p w])).announcer = some false))
    ∧ ((connTasks a sched).htrace = (echoer.Run a (handlerScript false sched)).trace
        ∧ (connTasks a sched).flow.outcome
            = (echoer.Run a (handlerScript false sched)).outcome)
    ∧ (∀ sched1 : List Sched, sched.map Sched.timing = sched1.map Sched.timing →
        (connTasks a sched).htrace = (connTasks a sched1).htrace
          ∧ (connTasks a sched).flow = (connTasks a sched1).flow
          ∧ (connTasks a sched).ctxDone = (connTasks a sched1).ctxDone
          ∧ (connTasks a sched).announcer = (connTasks a sched1).announcer
          ∧ (connTasks a sched).atrace.length = (connTasks a sched1).atrace.length)
    ∧ (connTasks a sched).ctxDone
        = (sched.any Sched.isCancel
            || (echoer.Run a (handlerScript false sched)).cancelCalled)
    ∧ ((connTasks a sched).flow.ended = true →
        ∀ (r1 : List Sched) (t p : Bool) (w : WriteResult) (r2 : List Sched),
          (t = false ∨ p = true) →
          (connTasks a (sched ++ r1 ++ .announcer t p w :: r2)).announcer
              = (if a then some true else none)
            ∧ (connTasks a (sched ++ r1 ++ .announcer t p w :: r2)).atrace
              = (connTasks a (sched ++ r1)).atrace)
    ∧ ((connTasks a sched).announcer = some true → ∀ r : List Sched,
        (connTasks a (sched ++ r)).announcer = some true
          ∧ (connTasks a (sched ++ r)).atrace = (connTasks a sched).atrace) := by
  have hinit : (Tasks.init a).flow = .next := rfl
  have hH := run_handler sched (Tasks.init a) hinit
  have hsome : ∀ sc : List Sched, (connTasks a sc).announcer.isSome = a := by
    intro sc
    have := run_announcer_isSome sc (Tasks.init a)
    rw [connTasks, this]
    cases a <;> rfl
  have hctx : ∀ sc : List Sched, (connTasks a sc).ctxDone
      = (sc.any Sched.isCancel || (connTasks a sc).flow.ended) := by
    intro sc
    have := run_ctx sc (Tasks.init a) (by intro h; cases h)
    rw [connTasks, this]
    simp [Tasks.init]
  have hstep : ∀ (sc : List Sched) (x : Sched),
      connTasks a (sc ++ [x]) = (connTasks a sc).step x := by
    intro sc x
    simp [connTasks, List.foldl_append]
  refine ⟨?_, ?_, by decide, ?_, ?_, ?_, ?_, ?_, ?_, ?_, ?_⟩
  · rw [hsome sched]
  · intro ha
    subst ha
    exact (run_announcer_idle sched (Tasks.init false) (by simp [Tasks.init])).2
  · exact run_payload sched (Tasks.init a) (by simp [Tasks.init])
  · intro ha
    subst ha
    have := run_announcer sched (Tasks.init true) rfl
    exact ⟨by simpa [connTasks, Tasks.init] using this.1, this.2⟩
  · intro t p w hrun
    have hst := Tasks.step_announcer_eq (connTasks a sched) t p w
    rw [hrun] at hst
    simp only at hst
    refine ⟨?_, ?_, ?_⟩
    · intro ht hd
      rw [hstep, hst]
      have c1 : ¬ ((connTasks a sched).ctxDone && (!t || p)) = true := by
        rcases hd with h | h <;> simp [h, ht]
      rw [if_neg c1, if_pos ht]
      exact ⟨rfl, rfl⟩
    · intro hd ht
      rw [hstep, hst]
      have c1 : ((connTasks a sched).ctxDone && (!t || p)) = true := by
        rcases ht with h | h <;> simp [h, hd]
      rw [if_pos c1]
      exact ⟨rfl, rfl⟩
    · intro ht hd
      rw [hstep, hst]
      have c1 : ¬ ((connTasks a sched).ctxDone && (!t || p)) = true := by simp [hd]
      have c2 : ¬ t = true := by simp [ht]
      rw [if_neg c1, if_neg c2]
      exact ⟨rfl, hrun⟩
  · exact ⟨by simpa [connTasks, echoer.Run, Tasks.init] using hH.1, hH.2⟩
  · intro sched1 hm
    have hag : (Tasks.init a).agree (Tasks.init a) := ⟨rfl, rfl, rfl, rfl, rfl, rfl⟩
    obtain ⟨h1, _, h3, h4, h5, h6⟩ := run_agree sched sched1 _ _ hag hm
    exact ⟨h4, h3, h1, h5, h6⟩
  · rw [hctx sched, Flow.ended_eq]
    have ho : (connTasks a sched).flow.outcome
        = (echoer.Run a (handlerScript false sched)).outcome := hH.2
    rw [ho]
    rfl
  · intro hend r1 t p w r2 htp
    have hd0 : (connTasks a sched).ctxDone = true := by
      rw [hctx sched, hend]
      simp
    have hsplit : connTasks a (sched ++ r1 ++ .announcer t p w :: r2)
        = r2.foldl Tasks.step ((connTasks a (sched ++ r1)).step (.announcer t p w)) := by
      simp [connTasks, List.foldl_append]
    have hd1 : (connTasks a (sched ++ r1)).ctxDone = true := by
      have := run_ctxDone r1 (connTasks a sched) hd0
      simpa [connTasks, List.foldl_append] using this
    have hst := Tasks.step_announcer_eq (connTasks a (sched ++ r1)) t p w
    have c1 : ((connTasks a (sched ++ r1)).ctxDone && (!t || p)) = true := by
      rcases htp with h | h <;> simp [h, hd1]
    have hs1 := hsome (sched ++ r1)
    have hidle : ((connTasks a (sched ++ r1)).step (.announcer t p w)).announcer
          = (if a then some true else none)
        ∧ ((connTasks a (sched ++ r1)).step (.announcer t p w)).atrace
          = (connTasks a (sched ++ r1)).atrace := by
      rw [hst]
      cases han : (connTasks a (sched ++ r1)).announcer with
      | none =>
        rw [han] at hs1
        have : a = false := by simpa using hs1.symm
        subst this
        exact ⟨han, rfl⟩
      | some r =>
        rw [han] at hs1
        have : a = true := by simpa using hs1.symm
        subst this
        cases r with
        | true => exact ⟨han, rfl⟩
        | false =>
          simp only
          rw [if_pos c1]
          exact ⟨rfl, rfl⟩
    have hne : ((connTasks a (sched ++ r1)).step (.announcer t p w)).announcer
        ≠ some false := by
      rw [hidle.1]
      cases a <;> simp
    obtain ⟨i1, i2⟩ := run_announcer_idle r2 _ hne
    rw [hsplit, i1, i2]
    exact hidle
  · intro hst r
    have hne : (connTasks a sched).announcer ≠ some false := by
      rw [hst]
      simp
    obtain ⟨i1, i2⟩ := run_announcer_idle r (connTasks a sched) hne
    have hsplit : connTasks a (sched ++ r) = r.foldl Tasks.step (connTasks a sched) := by
      simp [connTasks, List.foldl_append]
    rw [hsplit, i1, i2]
    exact ⟨hst, rfl⟩

theorem alive_announcer_witness :
    (connTasks true [.announcer true false ⟨0, some (.other 3)⟩,
        .handler none ⟨[1, 2, 3], none⟩ [⟨2, none⟩, ⟨1, none⟩],
        .announcer false false ⟨6, none⟩,
        .handler none ⟨[], some .eof⟩ []]).flow.ended = true
    ∧ (connTasks true ([.announcer true false ⟨0, some (.other 3)⟩,
        .handler none ⟨[1, 2, 3], none⟩ [⟨2, none⟩, ⟨1, none⟩],
        .announcer false false ⟨6, none⟩,
        .handler none ⟨[], some .eof⟩ []]
        ++ [.announcer true false ⟨-1, none⟩]
        ++ .announcer false false ⟨6, none⟩ :: [.announcer true false ⟨6, none⟩])).announcer
      = some true
    ∧ (connTasks true ([.announcer true false ⟨0, some (.other 3)⟩,
        .handler none ⟨[1, 2, 3], none⟩ [⟨2, none⟩, ⟨1, none⟩],
        .announcer false false ⟨6, none⟩,
        .handler none ⟨[], some .eof⟩ []]
        ++ [.announcer true false ⟨-1, none⟩]
        ++ .announcer false false ⟨6, none⟩ :: [.announcer true false ⟨6, none⟩])).atrace
      = [.write aliveMsg 0 (some (.other 3)), .write aliveMsg (-1) none] :=
  ⟨by decide,
   ((alive_announcer true [.announcer true false ⟨0, some (.other 3)⟩,
        .handler none ⟨[1, 2, 3], none⟩ [⟨2, none⟩, ⟨1, none⟩],
        .announcer false false ⟨6, none⟩,
        .handler none ⟨[], some .eof⟩ []]).2.2.2.2.2.2.2.2.2.1 (by decide)
      [.announcer true false ⟨-1, none⟩] false false ⟨6, none⟩
      [.announcer true false ⟨6, none⟩] (Or.inl rfl)).1,
   by decide⟩

/-- C10 (port argument range in `main`). The single positional argument makes
`main` create the server exactly when it is a base-10 integer (optional sign,
decimal digits) from -32768 to 32767, and the listen port is then that integer.
Every other argument, among them every decimal number from 32768 to 65535,
makes `main` print the line with "invalid integer for listenPort" and exit with
code 1 without creating the server. -/
theorem port_argument_range (arg : String) :
    ((∃ p, mainArgs [arg] = .serve p) ↔
      (isDecimalInt arg.toList = true ∧ -32768 ≤ decimalValue arg.toList
        ∧ decimalValue arg.toList ≤ 32767))
    ∧ (∀ p, mainArgs [arg] = .serve p → p = decimalValue arg.toList)
    ∧ (¬ (isDecimalInt arg.toList = true ∧ -32768 ≤ decimalValue arg.toList
          ∧ decimalValue arg.toList ≤ 32767) →
        mainArgs [arg]
          = .exit 1 ("error: invalid integer for listenPort (got " ++ arg ++ ")\n"))
    ∧ (isDecimalInt arg.toList = true → 32768 ≤ decimalValue arg.toList →
        decimalValue arg.toList ≤ 65535 →
        mainArgs [arg]
          = .exit 1 ("error: invalid integer for listenPort (got " ++ arg ++ ")\n")) := by
  obtain ⟨hiff, hval⟩ := ParseInt_ok arg.toList
  have hm : mainArgs [arg]
      = if (ParseInt arg.toList).2 ≠ none then
          .exit 1 ("error: invalid integer for listenPort (got " ++ arg ++ ")\n")
        else .serve (ParseInt arg.toList).1 := rfl
  have hrej : ¬ (isDecimalInt arg.toList = true ∧ -32768 ≤ decimalValue arg.toList
        ∧ decimalValue arg.toList ≤ 32767) →
      mainArgs [arg]
        = .exit 1 ("error: invalid integer for listenPort (got " ++ arg ++ ")\n") := by
    intro h
    have : (ParseInt arg.toList).2 ≠ none := fun h2 => h (hiff.mp h2)
    rw [hm, if_pos this]
  refine ⟨⟨?_, ?_⟩, ?_, hrej, ?_⟩
  · rintro ⟨p, hp⟩
    by_contra h
    rw [hrej h] at hp
    cases hp
  · intro h
    have : (ParseInt arg.toList).2 = none := hiff.mpr h
    refine ⟨(ParseInt arg.toList).1, ?_⟩
    rw [hm, if_neg (fun h2 => h2 this)]
  · intro p hp
    by_cases h : (ParseInt arg.toList).2 = none
    · rw [hm] at hp
      rw [if_neg (fun h2 => h2 h)] at hp
      cases hp
      exact hval h
    · rw [hm, if_pos h] at hp
      cases hp
  · intro _ h2 _
    apply hrej
    intro h
    omega

theorem port_argument_range_witness :
    isDecimalInt "40000".toList = true ∧ 32768 ≤ decimalValue "40000".toList
    ∧ decimalValue "40000".toList ≤ 65535
    ∧ mainArgs ["40000"]
        = .exit 1 ("error: invalid integer for listenPort (got " ++ "40000" ++ ")\n")
    ∧ mainArgs ["8080"] = .serve 8080 :=
  ⟨by decide, by decide, by decide,
   (port_argument_range "40000").2.2.2 (by decide) (by decide) (by decide),
   by decide⟩

end Echoer
